import Mathlib

/-!
Verification of the multilayer-perceptron training module (`nn/MLP.py`).

The source is shallowly embedded: a numpy 2-D array becomes a `List (List ℚ)`
(rows of rationals), numpy operations become the total list functions below,
and the training loop becomes a fuel-indexed recursion.  Injected collaborator
functions (activation functions and their derivatives, cost functions, the
regularization norm, the neural-local-gain update rule from `Helpers.py`, the
shuffling RNG) live outside the repository and are passed as plain Lean
functions, exactly as the Python code receives them as parameters.

numpy raises a `ValueError` when the inner dimensions of `np.dot` disagree;
this is modelled by the checked product `npDot` (and by `forwardChk`, which
replays a forward pass performing exactly the per-layer checks `np.dot` would
perform).  The explicit width test in `MLP.compute_output`
(`input_data.shape[1] != self.W[0].shape[1]`) raises the module's own
dimension-mismatch exception and is modelled by `MLPErr.dimensionMismatch`.
-/

/-- A numpy 2-D array of floats, embedded as a list of rows of rationals. -/
abbrev Mat := List (List ℚ)

/-- Column count of a matrix: the length of its first row (0 for the empty
matrix).  For the rectangular arrays numpy manipulates this is the width. -/
def ncols (A : Mat) : Nat := ((A.head?).map List.length).getD 0

/-- `A` is a well-formed `r × c` array: `r` rows, each of length `c`. -/
def IsRect (A : Mat) (r c : Nat) : Prop := A.length = r ∧ ∀ row ∈ A, row.length = c

instance (A : Mat) (r c : Nat) : Decidable (IsRect A r c) := by
  unfold IsRect; infer_instance

/-- Dot product of two rows. -/
def dotL (u v : List ℚ) : ℚ := (List.zipWith (· * ·) u v).sum

/-- Transpose (column `j` of `A` becomes row `j`), reading the width off the
first row as numpy's shape does. -/
def transposeM (A : Mat) : Mat :=
  (List.range (ncols A)).map (fun j => A.map (fun r => r.getD j 0))

/-- Matrix product `A · B` (`np.dot` on 2-D arrays). -/
def matMul (A B : Mat) : Mat :=
  A.map (fun ra => (transposeM B).map (fun cb => dotL ra cb))

/-- Elementwise (Hadamard) product, numpy `*`. -/
def hadamard (A B : Mat) : Mat := List.zipWith (List.zipWith (· * ·)) A B

/-- Elementwise sum, numpy `+`. -/
def matAdd (A B : Mat) : Mat := List.zipWith (List.zipWith (· + ·)) A B

/-- Elementwise difference, numpy `-`. -/
def matSub (A B : Mat) : Mat := List.zipWith (List.zipWith (· - ·)) A B

/-- Scalar multiple of a matrix. -/
def smulM (a : ℚ) (A : Mat) : Mat := A.map (List.map (fun x => a * x))

/-- Division of every entry by a (nominal batch-size) natural number. -/
def matDivNat (A : Mat) (n : Nat) : Mat := A.map (List.map (fun x => x / (n : ℚ)))

/-- Prepend the bias column of ones: `np.c_[np.ones(m.shape[0]), m]`. -/
def addBiasCol (A : Mat) : Mat := A.map (fun r => 1 :: r)

/-- Remove column 0 of every row (the bias column). -/
def dropBiasCol (A : Mat) : Mat := A.map (List.drop 1)

/-- Set column 0 of every row to zero: `m[:, 0] = 0`. -/
def zeroCol0 (A : Mat) : Mat :=
  A.map (fun r => match r with | [] => [] | _ :: t => 0 :: t)

/-- Matrix of zeros with the shape of `A`:
`np.zeros(np.prod(m.shape)).reshape(m.shape)`. -/
def zerosLike (A : Mat) : Mat := A.map (List.map (fun _ => 0))

/-- Matrix of ones with the shape of `A`: `np.ones(m.shape)`. -/
def onesLike (A : Mat) : Mat := A.map (List.map (fun _ => 1))

/-- `v.reshape((n, c))` for a flat vector `v`. -/
def reshapeM (l : List ℚ) (n c : Nat) : Mat :=
  (List.range n).map (fun i => (l.drop (i * c)).take c)

/-- Row selection `A[js, :]` (fancy indexing by a list of row indices). -/
def selectRows (A : Mat) (js : List Nat) : Mat := js.map (fun j => A.getD j [])

/-- Python `range(0, n, step)` (empty for `step = 0`, which Python rejects). -/
def rangeStep (n step : Nat) : List Nat :=
  if step = 0 then [] else (List.range ((n + step - 1) / step)).map (fun i => i * step)

/-- Errors surfacing from the module: the explicit width test in
`compute_output` raises the module's dimension-mismatch exception; a shape
disagreement inside `np.dot` raises numpy's own `ValueError`. -/
inductive MLPErr where
  | dimensionMismatch : MLPErr
  | npDotShapeError : MLPErr
deriving DecidableEq, Repr

instance {ε α : Type} [DecidableEq ε] [DecidableEq α] : DecidableEq (Except ε α) :=
  fun x y =>
    match x, y with
    | .ok a, .ok b =>
        if h : a = b then .isTrue (by rw [h])
        else .isFalse (by intro hh; cases hh; exact h rfl)
    | .error a, .error b =>
        if h : a = b then .isTrue (by rw [h])
        else .isFalse (by intro hh; cases hh; exact h rfl)
    | .ok _, .error _ => .isFalse (by intro hh; cases hh)
    | .error _, .ok _ => .isFalse (by intro hh; cases hh)

/-- Checked `np.dot`: numpy requires `A.shape[1] == B.shape[0]`. -/
def npDot (A B : Mat) : Except MLPErr Mat :=
  if ncols A = B.length then .ok (matMul A B) else .error .npDotShapeError

/-- The network: per-layer weight matrices (`self.W`, row = neuron, column 0 =
bias weight) and per-layer activation functions (`self.f_list`). -/
structure MLP where
  W : List Mat
  f_list : List (Mat → Mat)

/-- Construction of the weight list in `MLP.__init__`: layer `i` gets a
`neurons × dimension` matrix reshaped from `rng (neurons * dimension)`, with
`dimension = 1 + input_dimension` for layer 0 and `1 + layers_structure[i-1]`
otherwise. -/
def MLP.init (input_dimension : Nat) (layers_structure : List Nat)
    (activation_functions : List (Mat → Mat)) (rng : Nat → List ℚ) : MLP :=
  { W := (List.range layers_structure.length).map (fun i =>
      let neurons := layers_structure.getD i 0
      let dimension := 1 + (if i = 0 then input_dimension else layers_structure.getD (i - 1) 0)
      reshapeM (rng (neurons * dimension)) neurons dimension),
    f_list := activation_functions }

/-- The value computed by the forward loop shared by `compute_output` and the
training forward pass: `input = f_i(input · W_iᵀ)` for each layer, with a bias
column prepended between layers (not after the last). -/
def forwardVal : List (Mat × (Mat → Mat)) → Mat → Mat
  | [], d => d
  | (Wi, fi) :: rest, d =>
      let o := fi (matMul d (transposeM Wi))
      match rest with
      | [] => o
      | _ :: _ => forwardVal rest (addBiasCol o)

/-- Replay of the forward loop performing exactly the shape checks that each
`np.dot` call performs, so that a mismatched input surfaces as numpy's error
at the layer where the real code would raise it. -/
def forwardChk : List (Mat × (Mat → Mat)) → Mat → Except MLPErr Unit
  | [], _ => .ok ()
  | (Wi, fi) :: rest, d =>
      if ncols d = (transposeM Wi).length then
        let o := fi (matMul d (transposeM Wi))
        match rest with
        | [] => .ok ()
        | _ :: _ => forwardChk rest (addBiasCol o)
      else .error .npDotShapeError

/-- `MLP.compute_output`: optionally prepend the bias column, test the input
width against `W[0]`'s width (raising the dimension-mismatch error), then run
the forward loop. -/
def MLP.compute_output (m : MLP) (input_data : Mat) (add_bias : Bool) :
    Except MLPErr Mat :=
  let d := if add_bias then addBiasCol input_data else input_data
  if ncols d ≠ ncols (m.W.getD 0 []) then .error .dimensionMismatch
  else do
    forwardChk (m.W.zip m.f_list) d
    .ok (forwardVal (m.W.zip m.f_list) d)

/-- Pre-activation values recorded by the training forward pass:
`z[0] = batch · W_0ᵀ` and `z[i+1] = (bias-augmented f_i(z[i])) · W_{i+1}ᵀ`
(the loop appends `np.dot(tmp_data, W[i].T)` to `z`, applies the activation,
and prepends the bias column before every layer except the last — a recorded
`z` value at `i+1` exists only when layer `i` was not the last, so its input
is always the bias-augmented activation). -/
def zA (Ws : List Mat) (fs : List (Mat → Mat)) (batch : Mat) : Nat → Mat
  | 0 => matMul batch (transposeM (Ws.getD 0 []))
  | i + 1 =>
      matMul (addBiasCol ((fs.getD i (fun m => m)) (zA Ws fs batch i)))
        (transposeM (Ws.getD (i + 1) []))

/-- Post-activation values recorded by the training forward pass
(`f_z[i] = f_i(z[i])`, without the bias column). -/
def fzA (Ws : List Mat) (fs : List (Mat → Mat)) (batch : Mat) (i : Nat) : Mat :=
  (fs.getD i (fun m => m)) (zA Ws fs batch i)

/-- Output-layer error term (`dE_dz` at the last layer):
`d_goal(targets_batch, f_z[-1]) * (1.0 if d_goal == d_cross_entropy else
d_f_list[last](z[last]))`.  The function-reference comparison
`d_goal == d_cross_entropy` is modelled by the Boolean `isXent` (the function
`d_cross_entropy` itself lives in `Functions.py`, outside the repository
snapshot). -/
def outputDE (d_goal : Mat → Mat → Mat) (isXent : Bool) (dfLast : Mat → Mat)
    (yBatch zLast fzLast : Mat) : Mat :=
  if isXent then d_goal yBatch fzLast
  else hadamard (d_goal yBatch fzLast) (dfLast zLast)

/-- Hidden-layer error step:
`W[i+1].T[1:, :].dot(dE_dz_next.T).T * d_f_list[i](z[i])`. -/
def hiddenDE (Wnext dEnext dfz : Mat) : Mat :=
  hadamard (transposeM (matMul ((transposeM Wnext).drop 1) (transposeM dEnext))) dfz

/-- Backward error recursion indexed from the top: `dEdzRev k` is the
`dE_dz` value of layer `L - 1 - k` produced by the reversed layer loop
(`k = 0` is the output layer, each further step applies `hiddenDE` with the
next layer's weights and the current layer's activation derivative). -/
def dEdzRev (Ws : List Mat) (d_f_list : List (Mat → Mat)) (z : Nat → Mat)
    (out0 : Mat) : Nat → Mat
  | 0 => out0
  | k + 1 =>
      let i := Ws.length - 1 - (k + 1)
      hiddenDE (Ws.getD (i + 1) []) (dEdzRev Ws d_f_list z out0 k)
        ((d_f_list.getD i (fun m => m)) (z i))

/-- `dE_dz` of layer `i` in the backward pass. -/
def dEdz (Ws : List Mat) (d_f_list : List (Mat → Mat)) (z : Nat → Mat)
    (out0 : Mat) (i : Nat) : Mat :=
  dEdzRev Ws d_f_list z out0 (Ws.length - 1 - i)

/-- The input matrix of layer `i` in the gradient computation: the
(bias-augmented) batch data for layer 0, otherwise the bias-augmented
recorded activation of layer `i - 1`. -/
def layerInput (batch : Mat) (fz : Nat → Mat) (i : Nat) : Mat :=
  if i = 0 then batch else addBiasCol (fz (i - 1))

/-- Per-layer gradient:
`nabla_W[i] = np.dot(layer_input_data.T, dE_dz).T / batch_size`. -/
def nablaW (batch : Mat) (fz : Nat → Mat) (dE : Nat → Mat) (batch_size i : Nat) : Mat :=
  matDivNat (transposeM (matMul (transposeM (layerInput batch fz i)) (dE i))) batch_size

/-- Elementwise `delta_W * last_delta_W >= 0`, the sign-agreement mask handed
to the neural-local-gain update. -/
def agreeMask (A B : Mat) : List (List Bool) :=
  List.zipWith (List.zipWith (fun a b => decide (0 ≤ a * b))) A B

/-- All training parameters of `train_backprop`, in the order of the Python
signature.  `d_goal_is_d_cross_entropy` models the reference comparison
`d_goal == d_cross_entropy`; `nlg_update` is the injected
`Helpers.neuron_local_gain_update`; `shuffle` models `np.random.shuffle`
(given the epoch number and the index list, it returns the shuffled list). -/
structure TrainArgs where
  learning_rate : ℚ
  momentum_rate : ℚ
  regularization_rate : ℚ
  regularization_norm : Option (Mat → ℚ)
  d_regularization_norm : Option (Mat → Mat)
  neural_local_gain : Option (ℚ × ℚ × ℚ × ℚ)
  batch_size : Option Nat
  max_iter : Nat
  min_train_cost : ℚ
  min_cv_cost : ℚ
  n_iter_stop_skip : Nat
  stop_threshold : ℚ
  tolerance : ℚ
  goal : Mat → Mat → List ℚ
  d_goal : Mat → Mat → Mat
  d_goal_is_d_cross_entropy : Bool
  d_f_list : List (Mat → Mat)
  cv_input_data : Option Mat
  cv_output_data : Option Mat
  cv_goal : Option (Mat → Mat → List ℚ)
  add_bias : Bool
  nlg_update : Mat → List (List Bool) → ℚ → ℚ → ℚ → ℚ → Mat
  shuffle : Nat → List Nat → List Nat

/-- Mutable training state: the weight list (`self.W`), the momentum buffers
(`last_delta_W`) and the optional per-weight gain matrices (`nlg`). -/
structure TState where
  W : List Mat
  lastDelta : List Mat
  nlg : Option (List Mat)

/-- One layer of the weight-update loop.  Returns the new weight matrix
(`W[i] -= delta_W`), the stored update (`last_delta_W[i] = delta_W`) and the
new gain matrix (meaningful only when adaptive gain is enabled):
`delta_W = (learning_rate if nlg is None else learning_rate * nlg[i]) *
(momentum_rate * last_delta_W[i] + nabla_W[i] +
 (0 if d_regularization_norm is None else regularization_rate * penalty))`,
where `penalty` is the regularization gradient with its bias column zeroed. -/
def updateLayer (a : TrainArgs) (nlgI : Option Mat) (Wi lastDi nabI : Mat) :
    Mat × Mat × Mat :=
  let base := matAdd (smulM a.momentum_rate lastDi) nabI
  let inner := match a.d_regularization_norm with
    | none => base
    | some dreg => matAdd base (smulM a.regularization_rate (zeroCol0 (dreg Wi)))
  let delta := match nlgI with
    | none => smulM a.learning_rate inner
    | some g => hadamard (smulM a.learning_rate g) inner
  let nlgNew := match nlgI, a.neural_local_gain with
    | some g, some (bonus, penalty, mn, mx) =>
        a.nlg_update g (agreeMask delta lastDi) bonus penalty mn mx
    | some g, none => g
    | none, _ => []
  (matSub Wi delta, delta, nlgNew)

/-- The output-layer error term as instantiated by the batch loop of
`train_backprop`: `d_goal` applied to the batch targets and the recorded
last-layer activation, with the last layer's activation derivative. -/
def batchOut0 (a : TrainArgs) (fs : List (Mat → Mat)) (batch yBatch : Mat)
    (Ws : List Mat) : Mat :=
  outputDE a.d_goal a.d_goal_is_d_cross_entropy
    (a.d_f_list.getD (Ws.length - 1) (fun m => m)) yBatch
    (zA Ws fs batch (Ws.length - 1)) (fzA Ws fs batch (Ws.length - 1))

/-- The per-layer error term of the batch backward pass. -/
def batchDEdz (a : TrainArgs) (fs : List (Mat → Mat)) (batch yBatch : Mat)
    (Ws : List Mat) (i : Nat) : Mat :=
  dEdz Ws a.d_f_list (zA Ws fs batch) (batchOut0 a fs batch yBatch Ws) i

/-- The per-layer gradient of the batch backward pass. -/
def batchNabla (a : TrainArgs) (fs : List (Mat → Mat)) (batch_size : Nat)
    (batch yBatch : Mat) (Ws : List Mat) (i : Nat) : Mat :=
  nablaW batch (fzA Ws fs batch) (batchDEdz a fs batch yBatch Ws) batch_size i

/-- One batch of the training loop (pure part): forward pass recording `z`
and `f_z`, backward pass computing every layer's `dE_dz` and `nabla_W`, then
the per-layer weight update. -/
def batchStepP (a : TrainArgs) (fs : List (Mat → Mat)) (batch_size : Nat)
    (batch yBatch : Mat) (st : TState) : TState :=
  let L := st.W.length
  let upd := (List.range L).map (fun i =>
      updateLayer a (st.nlg.map (fun g => g.getD i [])) (st.W.getD i [])
        (st.lastDelta.getD i []) (batchNabla a fs batch_size batch yBatch st.W i))
  { W := upd.map (fun u => u.1),
    lastDelta := upd.map (fun u => u.2.1),
    nlg := st.nlg.map (fun _ => upd.map (fun u => u.2.2)) }

/-- One batch of the training loop, with the forward pass's `np.dot` shape
checks made explicit (the batch slice of the shuffled indices selects rows of
the prepared input and output data). -/
def batchStep (a : TrainArgs) (fs : List (Mat → Mat)) (batch_size : Nat)
    (inputD outputD : Mat) (idxSlice : List Nat) (st : TState) :
    Except MLPErr TState := do
  forwardChk (st.W.zip fs) (selectRows inputD idxSlice)
  .ok (batchStepP a fs batch_size (selectRows inputD idxSlice)
        (selectRows outputD idxSlice) st)

/-- Epoch cost:
`np.sum(goal(output_data, output) + reg) / input_rows`, where `reg` is `0`
or the scalar `np.sum(map(regularization_norm, self.W))` broadcast over the
per-example cost vector. -/
def epochCostVal (goal : Mat → Mat → List ℚ) (regNorm : Option (Mat → ℚ))
    (Ws : List Mat) (y out : Mat) (nRows : Nat) : ℚ :=
  let reg : ℚ := match regNorm with
    | none => 0
    | some f => (Ws.map f).sum
  (((goal y out).map (fun g => g + reg)).sum) / (nRows : ℚ)

/-- One full epoch: shuffle the index list, run every batch in order, then
compute the epoch's training cost (and the cross-validation cost when both
cv data sets are present) with `compute_output` on the full prepared data. -/
def epochFull (a : TrainArgs) (fs : List (Mat → Mat)) (batch_size : Nat)
    (inputD outputD : Mat) (cvInputD : Option Mat) (n_iter : Nat) (st : TState) :
    Except MLPErr (TState × ℚ × Option ℚ) := do
  let idx := a.shuffle n_iter (List.range inputD.length)
  let starts := rangeStep idx.length batch_size
  let st' ← starts.foldlM (fun s i =>
      batchStep a fs batch_size inputD outputD ((idx.drop i).take batch_size) s) st
  let out ← MLP.compute_output ⟨st'.W, fs⟩ inputD false
  let c := epochCostVal a.goal a.regularization_norm st'.W outputD out inputD.length
  match cvInputD, a.cv_output_data with
  | some cvIn, some cvOut => do
      let cvo ← MLP.compute_output ⟨st'.W, fs⟩ cvIn false
      let cvg := (a.cv_goal).getD a.goal
      .ok (st', c, some (epochCostVal cvg a.regularization_norm st'.W cvOut cvo cvIn.length))
  | _, _ => .ok (st', c, none)

/-- Last element of a cost list (`cost[-1]`). -/
def lastC (l : List ℚ) : ℚ := (l.getLast?).getD 0

/-- Python `min` of a cost list. -/
def minC (l : List ℚ) : ℚ :=
  match l with
  | [] => 0
  | x :: xs => xs.foldl min x

/-- The stop test performed at the end of an epoch: nothing fires unless
`n_iter > n_iter_stop_skip`; then the threshold test on the cv cost (if cv
tracking is active) or on the training cost, the `min_train_cost` test, the
`min_cv_cost` test (guarded by `len(cv_cost) > 0`), and the tolerance test on
the last two training costs (guarded by `len(cost) > 1`). -/
def stopCheck (do_cv : Bool) (n_iter n_iter_stop_skip : Nat)
    (stop_threshold min_train_cost min_cv_cost tolerance : ℚ)
    (cost cv_cost : List ℚ) : Bool :=
  if n_iter_stop_skip < n_iter then
    (if do_cv then decide (minC cv_cost < (1 - stop_threshold) * lastC cv_cost)
     else decide (minC cost < (1 - stop_threshold) * lastC cost))
    || decide (lastC cost ≤ min_train_cost)
    || (decide (0 < cv_cost.length) && decide (lastC cv_cost ≤ min_cv_cost))
    || (decide (1 < cost.length) &&
        decide (|lastC cost - cost.getD (cost.length - 2) 0| < tolerance))
  else false

/-- The epoch loop of `train_backprop`: run an epoch, append the training
cost (and the cv cost when tracked), stop when the stop test fires, and in
any case after `max_iter` epochs. -/
def trainLoop (a : TrainArgs) (fs : List (Mat → Mat)) (batch_size : Nat)
    (inputD outputD : Mat) (cvInputD : Option Mat) :
    Nat → Nat → TState → List ℚ → List ℚ →
    Except MLPErr (List ℚ × List ℚ × TState)
  | 0, _, st, cost, cv_cost => .ok (cost, cv_cost, st)
  | fuel + 1, n_iter, st, cost, cv_cost => do
      let (st', c, cvc?) ← epochFull a fs batch_size inputD outputD cvInputD n_iter st
      let cost' := cost ++ [c]
      let cv' := match cvc? with
        | some v => cv_cost ++ [v]
        | none => cv_cost
      if stopCheck cvc?.isSome n_iter a.n_iter_stop_skip a.stop_threshold
          a.min_train_cost a.min_cv_cost a.tolerance cost' cv' then
        .ok (cost', cv', st')
      else
        trainLoop a fs batch_size inputD outputD cvInputD fuel (n_iter + 1) st' cost' cv'

/-- `MLP.train_backprop`.  Bias-augments the training (and cv) inputs when
`add_bias` is set, defaults the batch size to the full data-set size,
initializes the momentum buffers to zeros and the gain matrices to ones (when
adaptive gain is enabled), runs the epoch loop, and returns the training cost
history — paired with the cv cost history exactly when both cv data sets were
supplied. -/
def MLP.train_backprop (m : MLP) (input_data output_data : Mat) (a : TrainArgs) :
    Except MLPErr ((List ℚ) ⊕ (List ℚ × List ℚ)) := do
  let inputD := if a.add_bias then addBiasCol input_data else input_data
  let batch_size := a.batch_size.getD inputD.length
  let do_cv := a.cv_input_data.isSome ∧ a.cv_output_data.isSome
  let cvInputD := match a.cv_input_data, a.cv_output_data with
    | some cvIn, some _ => some (if a.add_bias then addBiasCol cvIn else cvIn)
    | _, _ => none
  let st0 : TState :=
    { W := m.W,
      lastDelta := m.W.map zerosLike,
      nlg := if a.neural_local_gain.isSome then some (m.W.map onesLike) else none }
  let (cost, cv_cost, _) ←
    trainLoop a m.f_list batch_size inputD output_data cvInputD a.max_iter 0 st0 [] []
  if do_cv then .ok (.inr (cost, cv_cost)) else .ok (.inl cost)

/-- A function on matrices that maps well-formed `r × c` arrays to well-formed
`r × c` arrays, the contract of the injected activation functions, activation
derivatives, regularization gradients and gain-update rule. -/
def ShapePreserving (f : Mat → Mat) : Prop :=
  ∀ (A : Mat) (r c : Nat), IsRect A r c → IsRect (f A) r c

/-- The per-layer width of the weight list: layer `i` is a
`ns[i] × (1 + (d if i = 0 else ns[i-1]))` matrix. -/
def layerCols (d : Nat) (ns : List Nat) (i : Nat) : Nat :=
  1 + (if i = 0 then d else ns.getD (i - 1) 0)

/-- The weight list has the documented shape for input dimension `d` and
layer structure `ns`. -/
def WShape (d : Nat) (ns : List Nat) (Ws : List Mat) : Prop :=
  Ws.length = ns.length ∧
  ∀ i < ns.length, IsRect (Ws.getD i []) (ns.getD i 0) (layerCols d ns i)

instance (d : Nat) (ns : List Nat) (Ws : List Mat) : Decidable (WShape d ns Ws) := by
  unfold WShape
  infer_instance

/-- Training-state invariant: the weight matrices have the documented shapes,
and the momentum buffers and (when present) the gain matrices have exactly
the same shapes. -/
def ShapeInv (d : Nat) (ns : List Nat) (st : TState) : Prop :=
  WShape d ns st.W ∧ WShape d ns st.lastDelta ∧
  ∀ g, st.nlg = some g → WShape d ns g

/-- The injected `d_goal` returns a matrix of the shape of its second
argument (the network output), its documented contract. -/
def DGoalShape (dg : Mat → Mat → Mat) : Prop :=
  ∀ (t o : Mat) (r c : Nat), IsRect o r c → IsRect (dg t o) r c

/-- The injected `neuron_local_gain_update` returns a matrix of the shape of
the gain matrix it is given, its documented contract. -/
def NlgShape (u : Mat → List (List Bool) → ℚ → ℚ → ℚ → ℚ → Mat) : Prop :=
  ∀ (g : Mat) (c : List (List Bool)) (b p mn mx : ℚ) (r cc : Nat),
    IsRect g r cc → IsRect (u g c b p mn mx) r cc

/-- Shape contract of a zipped layer list `(W_i, f_i)` against a layer
structure: each weight matrix is `n_i × (1 + previous width)`, each layer has
at least one neuron, and each activation function preserves shapes. -/
def ChainOK : Nat → List (Mat × (Mat → Mat)) → List Nat → Prop
  | _, [], [] => True
  | din, (Wi, fi) :: rest, n :: ms =>
      IsRect Wi n (1 + din) ∧ 0 < n ∧ ShapePreserving fi ∧ ChainOK n rest ms
  | _, _ :: _, [] => False
  | _, [], _ :: _ => False

/-- Identity shuffle: a concrete (deterministic) stand-in for
`np.random.shuffle`, used by concrete instantiations below. -/
def idShuffle : Nat → List Nat → List Nat := fun _ l => l

/-- A concrete per-example goal function (identically zero cost), used by
concrete instantiations below. -/
def zeroGoal : Mat → Mat → List ℚ := fun _ o => o.map (fun _ => 0)

/-- A concrete goal derivative (the raw output), used by concrete
instantiations below. -/
def idDGoal : Mat → Mat → Mat := fun _ o => o

/-- A concrete gain-update rule (keeps the gain unchanged), used by concrete
instantiations below. -/
def idNlgU : Mat → List (List Bool) → ℚ → ℚ → ℚ → ℚ → Mat :=
  fun g _ _ _ _ _ => g

/-- A concrete regularization-norm derivative (same shape as its input), used
by concrete instantiations below. -/
def exDReg : Mat → Mat := fun A => A

/-- A concrete argument record for `train_backprop`, used by concrete
instantiations below. -/
def exArgs : TrainArgs :=
  { learning_rate := 1/2, momentum_rate := 1/2, regularization_rate := 1/2,
    regularization_norm := none, d_regularization_norm := none,
    neural_local_gain := none, batch_size := none, max_iter := 3,
    min_train_cost := 0, min_cv_cost := 0, n_iter_stop_skip := 10,
    stop_threshold := 1/20, tolerance := 0,
    goal := zeroGoal, d_goal := idDGoal, d_goal_is_d_cross_entropy := false,
    d_f_list := [fun m => m], cv_input_data := none, cv_output_data := none,
    cv_goal := none, add_bias := true, nlg_update := idNlgU, shuffle := idShuffle }

/-- `exArgs` with regularization and adaptive gain switched on. -/
def exArgsRegNlg : TrainArgs :=
  { exArgs with d_regularization_norm := some exDReg,
                neural_local_gain := some (1/10, 1/10, 1/10, 2) }

/-- `exArgs` with a one-example cross-validation set supplied. -/
def exArgsCV : TrainArgs :=
  { exArgs with cv_input_data := some [[4]], cv_output_data := some [[0]] }

/-- A concrete training state with one single-neuron layer. -/
def exState : TState :=
  { W := [[[1, 2]]], lastDelta := [[[0, 1]]], nlg := some [[[1, 1]]] }

/-! ### Shape lemmas for the embedded numpy operations -/

theorem IsRect.length_eq {A : Mat} {r c : Nat} (h : IsRect A r c) : A.length = r := h.1

theorem IsRect.row_len {A : Mat} {r c : Nat} (h : IsRect A r c) {row : List ℚ}
    (hm : row ∈ A) : row.length = c := h.2 row hm

theorem ncols_eq {A : Mat} {r c : Nat} (h : IsRect A r c) (hr : 0 < r) : ncols A = c := by
  obtain ⟨hlen, hrow⟩ := h
  cases A with
  | nil => simp at hlen; omega
  | cons hd tl => simpa [ncols] using hrow hd (by simp)

theorem getD_map_range {α : Type} (f : Nat → α) {n i : Nat} (d : α) (h : i < n) :
    ((List.range n).map f).getD i d = f i := by
  rw [List.getD_eq_getElem?_getD]
  simp [List.getElem?_map, List.getElem?_range, h]

theorem getD_mem {α : Type} {l : List α} {i : Nat} (d : α) (h : i < l.length) :
    l.getD i d ∈ l := by
  rw [List.getD_eq_getElem?_getD]
  simp only [List.getElem?_eq_getElem h, Option.getD_some]
  exact List.getElem_mem h

theorem transposeM_rect {A : Mat} {r c : Nat} (h : IsRect A r c) (hr : 0 < r) :
    IsRect (transposeM A) c r := by
  refine ⟨by simp [transposeM, ncols_eq h hr], ?_⟩
  intro row hm
  simp only [transposeM, List.mem_map] at hm
  obtain ⟨j, _, rfl⟩ := hm
  simp [h.length_eq]

theorem transposeM_length {A : Mat} {r c : Nat} (h : IsRect A r c) (hr : 0 < r) :
    (transposeM A).length = c := (transposeM_rect h hr).length_eq

theorem matMul_rect {A B : Mat} {m k n : Nat} (hA : IsRect A m k) (hB : IsRect B k n)
    (hk : 0 < k) : IsRect (matMul A B) m n := by
  refine ⟨by simp [matMul, hA.length_eq], ?_⟩
  intro row hm
  simp only [matMul, List.mem_map] at hm
  obtain ⟨ra, _, rfl⟩ := hm
  simp [transposeM_length hB hk]

theorem zipWith_rect (f : ℚ → ℚ → ℚ) :
    ∀ {A B : Mat} {r c : Nat}, IsRect A r c → IsRect B r c →
      IsRect (List.zipWith (List.zipWith f) A B) r c := by
  intro A
  induction A with
  | nil =>
      intro B r c hA hB
      refine ⟨by simpa using hA.length_eq, by simp⟩
  | cons a A ih =>
      intro B r c hA hB
      cases B with
      | nil =>
          exfalso
          have := hA.length_eq
          have := hB.length_eq
          simp at *; omega
      | cons b B =>
          have hr : r = A.length + 1 := by simpa using hA.length_eq.symm
          subst hr
          have hA' : IsRect A A.length c :=
            ⟨rfl, fun row hm => hA.row_len (by simp [hm])⟩
          have hB' : IsRect B A.length c := by
            refine ⟨by simpa using hB.length_eq, fun row hm => hB.row_len (by simp [hm])⟩
          have := ih hA' hB'
          refine ⟨by simpa using this.length_eq, ?_⟩
          intro row hm
          rcases List.mem_cons.mp hm with h | h
          · subst h
            have ha : a.length = c := hA.row_len (by simp)
            have hb : b.length = c := hB.row_len (by simp)
            simp [ha, hb]
          · exact this.row_len h

theorem hadamard_rect {A B : Mat} {r c : Nat} (hA : IsRect A r c) (hB : IsRect B r c) :
    IsRect (hadamard A B) r c := zipWith_rect _ hA hB

theorem matAdd_rect {A B : Mat} {r c : Nat} (hA : IsRect A r c) (hB : IsRect B r c) :
    IsRect (matAdd A B) r c := zipWith_rect _ hA hB

theorem matSub_rect {A B : Mat} {r c : Nat} (hA : IsRect A r c) (hB : IsRect B r c) :
    IsRect (matSub A B) r c := zipWith_rect _ hA hB

theorem mapRows_rect {g : List ℚ → List ℚ} {A : Mat} {r c c' : Nat}
    (h : IsRect A r c) (hg : ∀ row : List ℚ, row.length = c → (g row).length = c') :
    IsRect (A.map g) r c' := by
  refine ⟨by simp [h.length_eq], ?_⟩
  intro row hm
  simp only [List.mem_map] at hm
  obtain ⟨row₀, hm₀, rfl⟩ := hm
  exact hg row₀ (h.row_len hm₀)

theorem smulM_rect {A : Mat} {r c : Nat} (a : ℚ) (h : IsRect A r c) :
    IsRect (smulM a A) r c := mapRows_rect h (by intro row hr; simpa using hr)

theorem matDivNat_rect {A : Mat} {r c : Nat} (n : Nat) (h : IsRect A r c) :
    IsRect (matDivNat A n) r c := mapRows_rect h (by intro row hr; simpa using hr)

theorem addBiasCol_rect {A : Mat} {r c : Nat} (h : IsRect A r c) :
    IsRect (addBiasCol A) r (c + 1) := mapRows_rect h (by intro row hr; simpa using hr)

theorem zeroCol0_rect {A : Mat} {r c : Nat} (h : IsRect A r c) :
    IsRect (zeroCol0 A) r c := by
  refine mapRows_rect h ?_
  intro row hr
  cases row <;> simpa using hr

theorem zerosLike_rect {A : Mat} {r c : Nat} (h : IsRect A r c) :
    IsRect (zerosLike A) r c := mapRows_rect h (by intro row hr; simpa using hr)

theorem onesLike_rect {A : Mat} {r c : Nat} (h : IsRect A r c) :
    IsRect (onesLike A) r c := mapRows_rect h (by intro row hr; simpa using hr)

theorem drop_rect {A : Mat} {r c : Nat} (h : IsRect A r c) (k : Nat) :
    IsRect (A.drop k) (r - k) c := by
  refine ⟨by simp [h.length_eq], ?_⟩
  intro row hm
  exact h.row_len (List.mem_of_mem_drop hm)

theorem selectRows_rect {A : Mat} {r c : Nat} (h : IsRect A r c) {js : List Nat}
    (hjs : ∀ j ∈ js, j < r) : IsRect (selectRows A js) js.length c := by
  refine ⟨by simp [selectRows], ?_⟩
  intro row hm
  simp only [selectRows, List.mem_map] at hm
  obtain ⟨j, hj, rfl⟩ := hm
  have hjr : j < A.length := by rw [h.length_eq]; exact hjs j hj
  exact h.row_len (getD_mem [] hjr)

theorem reshapeM_rect {l : List ℚ} {n c : Nat} (hl : l.length = n * c) :
    IsRect (reshapeM l n c) n c := by
  refine ⟨by simp [reshapeM], ?_⟩
  intro row hm
  simp only [reshapeM, List.mem_map, List.mem_range] at hm
  obtain ⟨i, hi, rfl⟩ := hm
  have : i * c + c ≤ n * c := by
    have : i + 1 ≤ n := hi
    calc i * c + c = (i + 1) * c := by ring
    _ ≤ n * c := Nat.mul_le_mul_right c this
  simp [hl]
  omega

/-! ### The bias column of the next layer is dropped by the backward step -/

theorem getD_drop {α : Type} (l : List α) (i j : Nat) (d : α) :
    (l.drop i).getD j d = l.getD (i + j) d := by
  rw [List.getD_eq_getElem?_getD, List.getD_eq_getElem?_getD, List.getElem?_drop]

theorem transposeM_drop_one (A : Mat) :
    (transposeM A).drop 1 = transposeM (dropBiasCol A) := by
  cases A with
  | nil => rfl
  | cons hd tl =>
      have hcols : ncols (hd :: tl) = hd.length := by simp [ncols]
      have hcols' : ncols (dropBiasCol (hd :: tl)) = hd.length - 1 := by
        simp [ncols, dropBiasCol]
      cases hl : hd.length with
      | zero => simp [transposeM, hcols, hcols', hl]
      | succ ch =>
          unfold transposeM
          rw [hcols, hcols', hl, Nat.succ_sub_one, ← List.map_drop,
            List.range_succ_eq_map, List.drop_succ_cons, List.drop_zero, List.map_map]
          refine List.map_congr_left ?_
          intro j _
          simp only [Function.comp, dropBiasCol, List.map_map]
          refine List.map_congr_left ?_
          intro r _
          simp only [Function.comp]
          rw [getD_drop]
          congr 1
          omega

/-- C1: in the backward pass, for every hidden layer `i` (every layer except
the last), `dE/dz_i` equals the product of the transpose of `W[i+1]` with its
bias column removed and the transpose of `dE/dz_{i+1}`, transposed back and
multiplied elementwise by `d_f_list[i](z_i)`; and the bias column (column 0)
of `W[i+1]` does not contribute: any weight matrix agreeing with `W[i+1]`
outside column 0 yields the same error term. -/
theorem backward_hidden_layer_eq (Ws : List Mat) (d_f_list : List (Mat → Mat))
    (z : Nat → Mat) (out0 : Mat) (i : Nat) (hi : i + 1 < Ws.length) :
    dEdz Ws d_f_list z out0 i =
      hadamard
        (transposeM (matMul (transposeM (dropBiasCol (Ws.getD (i + 1) [])))
          (transposeM (dEdz Ws d_f_list z out0 (i + 1)))))
        ((d_f_list.getD i (fun m => m)) (z i)) ∧
    ∀ W' : Mat, dropBiasCol W' = dropBiasCol (Ws.getD (i + 1) []) →
      hiddenDE W' (dEdz Ws d_f_list z out0 (i + 1))
          ((d_f_list.getD i (fun m => m)) (z i)) =
        dEdz Ws d_f_list z out0 i := by
  have hstep : dEdz Ws d_f_list z out0 i =
      hiddenDE (Ws.getD (i + 1) []) (dEdz Ws d_f_list z out0 (i + 1))
        ((d_f_list.getD i (fun m => m)) (z i)) := by
    have h1 : Ws.length - 1 - i = (Ws.length - 1 - (i + 1)) + 1 := by omega
    have h2 : Ws.length - 1 - ((Ws.length - 1 - (i + 1)) + 1) = i := by omega
    rw [dEdz, h1]
    unfold dEdzRev
    rw [h2]
    rfl
  constructor
  · rw [hstep, hiddenDE, transposeM_drop_one]
  · intro W' hW'
    rw [hstep, hiddenDE, hiddenDE, transposeM_drop_one, transposeM_drop_one, hW']

/-- Witness for C1 on a concrete two-layer network: layer 0 is the hidden
layer, and replacing the bias column of `W[1]` by other values leaves its
error term unchanged. -/
theorem backward_hidden_layer_eq_witness :
    (0 : Nat) + 1 < ([[[ (1:ℚ), 2]], [[3, 4]]] : List Mat).length ∧
    (dEdz [[[ (1:ℚ), 2]], [[3, 4]]] [fun m => m, fun m => m] (fun _ => [[5]]) [[7]] 0 =
      hadamard
        (transposeM (matMul
          (transposeM (dropBiasCol (([[[ (1:ℚ), 2]], [[3, 4]]] : List Mat).getD 1 [])))
          (transposeM (dEdz [[[ (1:ℚ), 2]], [[3, 4]]] [fun m => m, fun m => m]
            (fun _ => [[5]]) [[7]] 1))))
        ((([fun m => m, fun m => m] : List (Mat → Mat)).getD 0 (fun m => m))
          ([[5]]))) ∧
    hiddenDE [[9, 4]] (dEdz [[[ (1:ℚ), 2]], [[3, 4]]] [fun m => m, fun m => m]
        (fun _ => [[5]]) [[7]] 1)
        ((([fun m => m, fun m => m] : List (Mat → Mat)).getD 0 (fun m => m)) ([[5]])) =
      dEdz [[[ (1:ℚ), 2]], [[3, 4]]] [fun m => m, fun m => m] (fun _ => [[5]]) [[7]] 0 := by
  refine ⟨by decide, ?_, ?_⟩
  · exact (backward_hidden_layer_eq [[[ (1:ℚ), 2]], [[3, 4]]] [fun m => m, fun m => m]
      (fun _ => [[5]]) [[7]] 0 (by decide)).1
  · exact (backward_hidden_layer_eq [[[ (1:ℚ), 2]], [[3, 4]]] [fun m => m, fun m => m]
      (fun _ => [[5]]) [[7]] 0 (by decide)).2 [[9, 4]] (by decide)

/-- C2: the output-layer error term of the backward pass equals
`d_goal(targets_batch, f_z[-1])` multiplied elementwise by
`d_f_list[last](z[last])`, except that the activation-derivative factor is
omitted when `d_goal` is (by function-reference comparison) the cross-entropy
derivative, in which case the error term is the raw `d_goal` value alone. -/
theorem output_layer_error_eq (Ws : List Mat) (fs d_f_list : List (Mat → Mat))
    (d_goal : Mat → Mat → Mat) (isXent : Bool) (batch yBatch : Mat) :
    dEdz Ws d_f_list (zA Ws fs batch)
      (outputDE d_goal isXent (d_f_list.getD (Ws.length - 1) (fun m => m)) yBatch
        (zA Ws fs batch (Ws.length - 1)) (fzA Ws fs batch (Ws.length - 1)))
      (Ws.length - 1) =
    if isXent then d_goal yBatch (fzA Ws fs batch (Ws.length - 1))
    else
      hadamard (d_goal yBatch (fzA Ws fs batch (Ws.length - 1)))
        ((d_f_list.getD (Ws.length - 1) (fun m => m)) (zA Ws fs batch (Ws.length - 1))) := by
  rw [dEdz, Nat.sub_self]
  rfl

/-! ### Epoch cost: averaged goal term, unaveraged regularization term -/

theorem sum_map_add_const (l : List ℚ) (r : ℚ) :
    (l.map (fun g => g + r)).sum = l.sum + l.length * r := by
  induction l with
  | nil => simp
  | cons x xs ih => simp [ih]; ring

/-- C5: the training cost recorded at the end of an epoch is the mean over
the examples of the per-example goal values plus — when a regularization norm
is supplied — the sum of the per-layer penalties, added once and not divided
by the number of examples (the scalar penalty is broadcast over the
per-example vector before `np.sum`, so the outer division by the example
count cancels against the broadcast). -/
theorem epoch_cost_mean_plus_reg (goal : Mat → Mat → List ℚ)
    (regNorm : Option (Mat → ℚ)) (Ws : List Mat) (y out : Mat) (N : Nat)
    (hlen : (goal y out).length = N) (hN : 0 < N) :
    epochCostVal goal regNorm Ws y out N =
      (goal y out).sum / (N : ℚ) +
        (match regNorm with
         | none => 0
         | some f => (Ws.map f).sum) := by
  have hNq : (N : ℚ) ≠ 0 := by exact_mod_cast hN.ne'
  unfold epochCostVal
  dsimp only
  rw [sum_map_add_const, hlen, add_div, mul_div_cancel_left₀ _ hNq]

/-- Witness for C5 with two examples and an L1-style layer penalty. -/
theorem epoch_cost_mean_plus_reg_witness :
    ((fun (_ o : Mat) => o.map List.sum) [[0]] [[2], [4]]).length = 2 ∧ 0 < 2 ∧
    epochCostVal (fun (_ o : Mat) => o.map List.sum)
        (some (fun A => A.length)) [[[1], [7]]] [[0]] [[2], [4]] 2 =
      ((fun (_ o : Mat) => o.map List.sum) [[0]] [[2], [4]]).sum / (2 : ℚ) +
        (match (some (fun (A : Mat) => (A.length : ℚ))) with
         | none => 0
         | some f => (([[[1], [7]]] : List Mat).map f).sum) :=
  ⟨by decide, by decide,
    epoch_cost_mean_plus_reg (fun _ o => o.map List.sum)
      (some (fun A => A.length)) [[[1], [7]]] [[0]] [[2], [4]] 2 (by decide) (by decide)⟩

/-! ### The final short batch is still divided by the nominal batch size -/

theorem matDivNat_rescale (M : Mat) (bs r : Nat) (hbs : (bs : ℚ) ≠ 0)
    (hr : (r : ℚ) ≠ 0) :
    matDivNat M bs = smulM ((r : ℚ) / (bs : ℚ)) (matDivNat M r) := by
  unfold matDivNat smulM
  rw [List.map_map]
  refine List.map_congr_left ?_
  intro row _
  simp only [Function.comp, List.map_map]
  refine List.map_congr_left ?_
  intro x _
  simp only [Function.comp]
  field_simp
  ring

/-- C10: when `batch_size` does not divide the number `N` of training
examples, the final batch start produced by `range(0, N, batch_size)` is
`N - N % batch_size`, the final slice of the shuffled index list holds only
`N % batch_size < batch_size` examples, and the gradient of that batch —
divided by the nominal `batch_size` — is the true per-example average of the
batch scaled down by the factor `(N % batch_size) / batch_size`. -/
theorem final_batch_scaled_down (N bs : Nat) (idx : List Nat) (hbs : 0 < bs)
    (hN : 0 < N) (hnd : ¬ bs ∣ N) (hidx : idx.length = N) :
    (rangeStep N bs).getLast? = some (N - N % bs) ∧
    ((idx.drop (N - N % bs)).take bs).length = N % bs ∧
    N % bs < bs ∧
    ∀ (batch : Mat) (fz dE : Nat → Mat) (i : Nat),
      nablaW batch fz dE bs i =
        smulM (((N % bs : Nat) : ℚ) / (bs : ℚ)) (nablaW batch fz dE (N % bs) i) := by
  have hr1 : 1 ≤ N % bs := by
    rcases Nat.eq_zero_or_pos (N % bs) with h0 | h1
    · exact absurd (Nat.dvd_of_mod_eq_zero h0) hnd
    · exact h1
  have hrlt : N % bs < bs := Nat.mod_lt _ hbs
  have hqr : bs * (N / bs) + N % bs = N := Nat.div_add_mod N bs
  have hk : (N + bs - 1) / bs = N / bs + 1 := by
    have heq : N + bs - 1 = bs * (N / bs + 1) + (N % bs - 1) := by
      rw [Nat.mul_add, Nat.mul_one]
      omega
    have hz : (N % bs - 1) / bs = 0 := Nat.div_eq_of_lt (by omega)
    rw [heq, Nat.mul_add_div hbs, hz]
  refine ⟨?_, ?_, hrlt, ?_⟩
  · rw [rangeStep, if_neg hbs.ne', hk, List.getLast?_eq_getElem?]
    simp only [List.length_map, List.length_range, Nat.add_sub_cancel,
      List.getElem?_map, List.getElem?_range (Nat.lt_succ_self (N / bs))]
    have h1 : N / bs * bs = N - N % bs := by rw [Nat.mul_comm]; omega
    simp [h1]
  · simp only [List.length_take, List.length_drop, hidx]
    omega
  · intro batch fz dE i
    have hbq : (bs : ℚ) ≠ 0 := by exact_mod_cast hbs.ne'
    have hrq : ((N % bs : Nat) : ℚ) ≠ 0 := by
      exact_mod_cast (by omega : N % bs ≠ 0)
    unfold nablaW
    exact matDivNat_rescale _ bs (N % bs) hbq hrq

/-- Witness for C10: five examples with batch size two leave a final batch of
one example, whose gradient is halved relative to its per-example average. -/
theorem final_batch_scaled_down_witness :
    (rangeStep 5 2).getLast? = some (5 - 5 % 2) ∧
    ((([0, 1, 2, 3, 4] : List Nat).drop (5 - 5 % 2)).take 2).length = 5 % 2 ∧
    5 % 2 < 2 ∧
    nablaW [[1, 2]] (fun _ => [[1]]) (fun _ => [[3]]) 2 0 =
      smulM (((5 % 2 : Nat) : ℚ) / (2 : ℚ)) (nablaW [[1, 2]] (fun _ => [[1]]) (fun _ => [[3]]) (5 % 2) 0) := by
  obtain ⟨h1, h2, h3, h4⟩ :=
    final_batch_scaled_down 5 2 [0, 1, 2, 3, 4] (by decide) (by decide) (by decide) (by decide)
  exact ⟨h1, h2, h3, h4 [[1, 2]] (fun _ => [[1]]) (fun _ => [[3]]) 0⟩

/-! ### The per-layer weight update rule -/

theorem batchStepP_getD_W (a : TrainArgs) (fs : List (Mat → Mat)) (bs : Nat)
    (batch yBatch : Mat) (st : TState) (i : Nat) (hi : i < st.W.length) :
    (batchStepP a fs bs batch yBatch st).W.getD i [] =
      (updateLayer a (st.nlg.map (fun g => g.getD i [])) (st.W.getD i [])
        (st.lastDelta.getD i []) (batchNabla a fs bs batch yBatch st.W i)).1 := by
  simp only [batchStepP, List.map_map]
  exact getD_map_range _ [] hi

theorem batchStepP_getD_lastDelta (a : TrainArgs) (fs : List (Mat → Mat)) (bs : Nat)
    (batch yBatch : Mat) (st : TState) (i : Nat) (hi : i < st.W.length) :
    (batchStepP a fs bs batch yBatch st).lastDelta.getD i [] =
      (updateLayer a (st.nlg.map (fun g => g.getD i [])) (st.W.getD i [])
        (st.lastDelta.getD i []) (batchNabla a fs bs batch yBatch st.W i)).2.1 := by
  simp only [batchStepP, List.map_map]
  exact getD_map_range _ [] hi

/-- C4: for every layer `i`, the batch update applies
`W[i] -= delta_W` and stores `delta_W` as `last_delta_W[i]`, where
`delta_W = rate * (momentum_rate * last_delta_W[i] + nabla_W[i] +
regularization_rate * penalty)` — `rate` being the scalar learning rate when
adaptive gain is off and the learning rate times the layer's gain matrix
(elementwise) when it is on, and `penalty` being the regularization gradient
with its bias column zeroed, the whole term absent when no
`d_regularization_norm` is supplied. -/
theorem weight_update_rule (a : TrainArgs) (fs : List (Mat → Mat)) (bs : Nat)
    (batch yBatch : Mat) (st : TState) (i : Nat) (hi : i < st.W.length) :
    (batchStepP a fs bs batch yBatch st).W.getD i [] =
      matSub (st.W.getD i [])
        ((batchStepP a fs bs batch yBatch st).lastDelta.getD i []) ∧
    (batchStepP a fs bs batch yBatch st).lastDelta.getD i [] =
      (match st.nlg with
       | none => smulM a.learning_rate
       | some g => fun M => hadamard (smulM a.learning_rate (g.getD i [])) M)
      (match a.d_regularization_norm with
       | none =>
           matAdd (smulM a.momentum_rate (st.lastDelta.getD i []))
             (batchNabla a fs bs batch yBatch st.W i)
       | some dreg =>
           matAdd
             (matAdd (smulM a.momentum_rate (st.lastDelta.getD i []))
               (batchNabla a fs bs batch yBatch st.W i))
             (smulM a.regularization_rate (zeroCol0 (dreg (st.W.getD i []))))) := by
  rw [batchStepP_getD_W a fs bs batch yBatch st i hi,
    batchStepP_getD_lastDelta a fs bs batch yBatch st i hi]
  unfold updateLayer
  cases st.nlg <;> cases a.d_regularization_norm <;> simp [Option.map]

/-- Witness for C4 on a one-layer network with regularization and adaptive
gain both enabled. -/
theorem weight_update_rule_witness :
    0 < exState.W.length ∧
    ((batchStepP exArgsRegNlg [fun m => m] 1 [[1, 3]] [[2]] exState).W.getD 0 [] =
      matSub (exState.W.getD 0 [])
        ((batchStepP exArgsRegNlg [fun m => m] 1 [[1, 3]] [[2]] exState).lastDelta.getD 0 []) ∧
    (batchStepP exArgsRegNlg [fun m => m] 1 [[1, 3]] [[2]] exState).lastDelta.getD 0 [] =
      (match exState.nlg with
       | none => smulM exArgsRegNlg.learning_rate
       | some g => fun M => hadamard (smulM exArgsRegNlg.learning_rate (g.getD 0 [])) M)
      (match exArgsRegNlg.d_regularization_norm with
       | none =>
           matAdd (smulM exArgsRegNlg.momentum_rate (exState.lastDelta.getD 0 []))
             (batchNabla exArgsRegNlg [fun m => m] 1 [[1, 3]] [[2]] exState.W 0)
       | some dreg =>
           matAdd
             (matAdd (smulM exArgsRegNlg.momentum_rate (exState.lastDelta.getD 0 []))
               (batchNabla exArgsRegNlg [fun m => m] 1 [[1, 3]] [[2]] exState.W 0))
             (smulM exArgsRegNlg.regularization_rate
               (zeroCol0 (dreg (exState.W.getD 0 [])))))) :=
  ⟨by decide, weight_update_rule exArgsRegNlg [fun m => m] 1 [[1, 3]] [[2]] exState 0 (by decide)⟩

/-! ### The stopping policy -/

/-- C6: the stop test never fires at an epoch index `n ≤ n_iter_stop_skip`;
once `n > n_iter_stop_skip` it fires exactly when the threshold test
`(1 - stop_threshold) * latest > min so far` holds for the cv cost history
when cv tracking is active and for the training cost history otherwise, or
the latest training cost is at most `min_train_cost`, or cv tracking is
active and the latest cv cost is at most `min_cv_cost`, or the absolute
change between the last two training costs is below `tolerance` (the code's
`len(cost) > 1` guard is automatic because the test only runs from the
second epoch on). -/
theorem stop_criteria (do_cv : Bool) (n skip : Nat) (th mtr mcv tol : ℚ)
    (cost cv : List ℚ) (hc : cost.length = n + 1)
    (hcv : if do_cv then cv.length = cost.length else cv = []) :
    stopCheck do_cv n skip th mtr mcv tol cost cv = true ↔
      (skip < n ∧
        (minC (if do_cv then cv else cost) <
            (1 - th) * lastC (if do_cv then cv else cost)
         ∨ lastC cost ≤ mtr
         ∨ (do_cv = true ∧ lastC cv ≤ mcv)
         ∨ |lastC cost - cost.getD (cost.length - 2) 0| < tol)) := by
  unfold stopCheck
  by_cases hskip : skip < n
  · rw [if_pos hskip]
    have hlen2 : 1 < cost.length := by omega
    cases do_cv with
    | false =>
        have hcv' : cv = [] := by simpa using hcv
        subst hcv'
        simp [decide_eq_true_iff, hskip, hlen2]
        tauto
    | true =>
        have hcvlen : 0 < cv.length := by
          have : cv.length = cost.length := by simpa using hcv
          omega
        simp [decide_eq_true_iff, hskip, hlen2, hcvlen]
        tauto
  · rw [if_neg hskip]
    simp [hskip]

/-- Witness for C6: with three recorded epoch costs, cv tracking active and
the skip threshold already passed, the test fires because the latest cv cost
has regressed above its historical minimum. -/
theorem stop_criteria_witness :
    ([(3 : ℚ), 1, 2] : List ℚ).length = 2 + 1 ∧
    (if true then ([(5 : ℚ), 1, 4] : List ℚ).length = ([(3 : ℚ), 1, 2] : List ℚ).length
     else ([(5 : ℚ), 1, 4] : List ℚ) = []) ∧
    (stopCheck true 2 0 (1/2) 0 0 0 [(3 : ℚ), 1, 2] [(5 : ℚ), 1, 4] = true ↔
      (0 < 2 ∧
        (minC (if true then ([(5 : ℚ), 1, 4] : List ℚ) else [(3 : ℚ), 1, 2]) <
            (1 - 1/2) * lastC (if true then ([(5 : ℚ), 1, 4] : List ℚ) else [(3 : ℚ), 1, 2])
         ∨ lastC [(3 : ℚ), 1, 2] ≤ 0
         ∨ (true = true ∧ lastC [(5 : ℚ), 1, 4] ≤ 0)
         ∨ |lastC [(3 : ℚ), 1, 2] - ([(3 : ℚ), 1, 2] : List ℚ).getD (([(3 : ℚ), 1, 2] : List ℚ).length - 2) 0| < 0))) :=
  ⟨by decide, by decide,
    stop_criteria true 2 0 (1/2) 0 0 0 [(3 : ℚ), 1, 2] [(5 : ℚ), 1, 4]
      (by decide) (by decide)⟩

/-! ### Dimension-mismatch behaviour at inference and at training time -/

theorem transposeM_length_ncols (A : Mat) : (transposeM A).length = ncols A := by
  simp [transposeM]

theorem forwardChk_cons_err {Wi : Mat} {fi : Mat → Mat}
    {rest : List (Mat × (Mat → Mat))} {d : Mat} (h : ncols d ≠ ncols Wi) :
    forwardChk ((Wi, fi) :: rest) d = .error .npDotShapeError := by
  unfold forwardChk
  rw [transposeM_length_ncols, if_neg h]

theorem batchStep_err (a : TrainArgs) {fs : List (Mat → Mat)} (bs : Nat)
    {inputD : Mat} (outputD : Mat) {slice : List Nat} {st : TState}
    {W0 : Mat} {f0 : Mat → Mat} {zrest : List (Mat × (Mat → Mat))}
    (hzip : st.W.zip fs = (W0, f0) :: zrest)
    (h : ncols (selectRows inputD slice) ≠ ncols W0) :
    batchStep a fs bs inputD outputD slice st = .error .npDotShapeError := by
  unfold batchStep
  rw [hzip, forwardChk_cons_err h]
  rfl

theorem rangeStep_head {n bs : Nat} (hbs : 0 < bs) (hn : 0 < n) :
    ∃ tl, rangeStep n bs = 0 :: tl := by
  unfold rangeStep
  rw [if_neg hbs.ne']
  have hk : 0 < (n + bs - 1) / bs := Nat.div_pos (by omega) hbs
  obtain ⟨k', hk'⟩ : ∃ k', (n + bs - 1) / bs = k' + 1 := ⟨(n + bs - 1) / bs - 1, by omega⟩
  rw [hk', List.range_succ_eq_map]
  refine ⟨(List.range k').map (fun i => Nat.succ i * bs), ?_⟩
  simp [List.map_map, Function.comp]

theorem ncols_selectRows_cons (D : Mat) (j : Nat) (rest : List Nat) :
    ncols (selectRows D (j :: rest)) = (D.getD j []).length := by
  simp [selectRows, ncols]

theorem epochFull_mismatch_err (a : TrainArgs) (fs : List (Mat → Mat)) (bs : Nat)
    (D outputD : Mat) (cvX : Option Mat) (n : Nat) (st : TState)
    {W0 : Mat} {f0 : Mat → Mat} {zr : List (Mat × (Mat → Mat))} {j : Nat} {tl : List Nat}
    (hbs : 0 < bs)
    (hzip : st.W.zip fs = (W0, f0) :: zr)
    (hshuf : a.shuffle n (List.range D.length) = j :: tl)
    (hjlt : j < D.length)
    (hrect : ∀ row ∈ D, row.length = ncols D)
    (hmis : ncols D ≠ ncols W0) :
    epochFull a fs bs D outputD cvX n st = .error .npDotShapeError := by
  obtain ⟨b', hb'⟩ : ∃ b', bs = b' + 1 := ⟨bs - 1, by omega⟩
  obtain ⟨tl', hstarts⟩ := rangeStep_head hbs (n := (j :: tl).length) (by simp)
  have hslice : ((j :: tl).drop 0).take bs = j :: tl.take b' := by
    rw [List.drop_zero, hb', List.take_succ_cons]
  have hbatch : ncols (selectRows D (j :: tl.take b')) ≠ ncols W0 := by
    rw [ncols_selectRows_cons]
    have hmem : D.getD j [] ∈ D := getD_mem [] hjlt
    rw [hrect _ hmem]
    exact hmis
  have hfirst : batchStep a fs bs D outputD (j :: tl.take b') st =
      .error .npDotShapeError := batchStep_err a bs outputD hzip hbatch
  unfold epochFull
  dsimp only
  rw [hshuf, hstarts, List.foldlM_cons, hslice, hfirst]
  rfl

theorem trainLoop_first_epoch_err (a : TrainArgs) (fs : List (Mat → Mat)) (bs : Nat)
    (D outputD : Mat) (cvX : Option Mat) (fuel n : Nat) (st : TState)
    (cost cv : List ℚ)
    (h : epochFull a fs bs D outputD cvX n st = .error .npDotShapeError) :
    trainLoop a fs bs D outputD cvX (fuel + 1) n st cost cv =
      .error .npDotShapeError := by
  unfold trainLoop
  rw [h]
  rfl

/-- C7 (amended): the explicit dimension check exists only in
`compute_output`, where a width mismatch between the (possibly
bias-augmented) input and `W[0]` raises the module's dimension-mismatch
error before any layer computation; `train_backprop` performs no such check —
there a mismatched input surfaces as numpy's shape error from the first
layer's `np.dot` inside the first batch of the first epoch. -/
theorem dim_mismatch_raising (m : MLP) (a : TrainArgs) (input output_data : Mat)
    (hmis : ncols (if a.add_bias then addBiasCol input else input) ≠
      ncols (m.W.getD 0 []))
    (hrect : ∀ row ∈ (if a.add_bias then addBiasCol input else input),
      row.length = ncols (if a.add_bias then addBiasCol input else input))
    (hW : 0 < m.W.length) (hf : 0 < m.f_list.length) (hfuel : 0 < a.max_iter)
    (hbs : 0 < a.batch_size.getD (if a.add_bias then addBiasCol input else input).length)
    (hsh : ∃ j tl,
      a.shuffle 0 (List.range (if a.add_bias then addBiasCol input else input).length) =
          j :: tl ∧
        j < (if a.add_bias then addBiasCol input else input).length) :
    MLP.compute_output m input a.add_bias = .error .dimensionMismatch ∧
    MLP.train_backprop m input output_data a = .error .npDotShapeError := by
  refine ⟨?_, ?_⟩
  · unfold MLP.compute_output
    dsimp only
    rw [if_pos hmis]
  · obtain ⟨j, tl, hshuf, hjlt⟩ := hsh
    obtain ⟨fuel, hfl⟩ : ∃ f, a.max_iter = f + 1 := ⟨a.max_iter - 1, by omega⟩
    rcases hWd : m.W with _ | ⟨W0, Wr⟩
    · rw [hWd] at hW; simp at hW
    rcases hfd : m.f_list with _ | ⟨f0, fr⟩
    · rw [hfd] at hf; simp at hf
    have hmis0 : ncols (if a.add_bias then addBiasCol input else input) ≠ ncols W0 := by
      rw [hWd] at hmis
      simpa using hmis
    unfold MLP.train_backprop
    dsimp only
    rw [hfl]
    rw [trainLoop_first_epoch_err _ _ _ _ _ _ _ _ _ _ _
      (epochFull_mismatch_err _ _ _ _ _ _ _ _ hbs (by rw [hWd, hfd]; rfl) hshuf hjlt
        hrect hmis0)]
    rfl

/-- C7 counterexample: a 1-feature input fed to a network whose first layer
expects 2 features (3 columns with the bias).  At inference time the module's
dimension-mismatch error is raised, but `train_backprop` on the same input
does not raise it before computing — the failure it produces is numpy's shape
error from the first layer product inside the first batch. -/
theorem train_no_dim_precheck_counterexample :
    MLP.train_backprop ⟨[[[1, 2, 3]]], [fun m => m]⟩ [[5]] [[0]] exArgs =
      .error .npDotShapeError ∧
    MLP.train_backprop ⟨[[[1, 2, 3]]], [fun m => m]⟩ [[5]] [[0]] exArgs ≠
      .error .dimensionMismatch ∧
    MLP.compute_output ⟨[[[1, 2, 3]]], [fun m => m]⟩ [[5]] true =
      .error .dimensionMismatch :=
  ⟨by decide, by decide, by decide⟩

/-- Witness for the amended C7 on the concrete mismatched network above. -/
theorem dim_mismatch_raising_witness :
    MLP.compute_output ⟨[[[1, 2, 3]]], [fun m => m]⟩ [[5]] exArgs.add_bias =
      .error .dimensionMismatch ∧
    MLP.train_backprop ⟨[[[1, 2, 3]]], [fun m => m]⟩ [[5]] [[0]] exArgs =
      .error .npDotShapeError :=
  dim_mismatch_raising ⟨[[[1, 2, 3]]], [fun m => m]⟩ exArgs [[5]] [[0]]
    (by decide) (by decide) (by decide) (by decide) (by decide) (by decide)
    ⟨0, [], by decide, by decide⟩

/-! ### Shapes of the recorded forward-pass values -/

theorem getD_shapePreserving {fs : List (Mat → Mat)}
    (hfs : ∀ f ∈ fs, ShapePreserving f) (i : Nat) :
    ShapePreserving (fs.getD i (fun m => m)) := by
  by_cases h : i < fs.length
  · exact hfs _ (getD_mem _ h)
  · rw [List.getD_eq_default]
    · intro A r c hA
      exact hA
    · omega

theorem WShape.lenEq {d : Nat} {ns : List Nat} {Ws : List Mat}
    (h : WShape d ns Ws) : Ws.length = ns.length := h.1

theorem WShape.layer {d : Nat} {ns : List Nat} {Ws : List Mat}
    (h : WShape d ns Ws) {i : Nat} (hi : i < ns.length) :
    IsRect (Ws.getD i []) (ns.getD i 0) (layerCols d ns i) := h.2 i hi

theorem zA_fzA_rect (d : Nat) (ns : List Nat) (Ws : List Mat)
    (fs : List (Mat → Mat)) (batch : Mat) (B : Nat)
    (hW : WShape d ns Ws) (hpos : ∀ i < ns.length, 0 < ns.getD i 0)
    (hfs : ∀ f ∈ fs, ShapePreserving f)
    (hbatch : IsRect batch B (1 + d)) (hB : 0 < B) :
    ∀ i < ns.length, IsRect (zA Ws fs batch i) B (ns.getD i 0) ∧
      IsRect (fzA Ws fs batch i) B (ns.getD i 0) := by
  intro i
  induction i with
  | zero =>
      intro h0
      have hW0 := hW.layer h0
      have hn0 := hpos 0 h0
      have hz : IsRect (zA Ws fs batch 0) B (ns.getD 0 0) := by
        rw [zA]
        exact matMul_rect hbatch (transposeM_rect (by simpa [layerCols] using hW0) hn0)
          (by omega)
      exact ⟨hz, getD_shapePreserving hfs 0 _ _ _ hz⟩
  | succ i ih =>
      intro hi1
      have hi : i < ns.length := by omega
      obtain ⟨hz, hfz⟩ := ih hi
      have hWi1 := hW.layer hi1
      have hcols : layerCols d ns (i + 1) = 1 + ns.getD i 0 := by
        simp [layerCols]
      rw [hcols] at hWi1
      have hni1 := hpos (i + 1) hi1
      have hin : IsRect (addBiasCol (fzA Ws fs batch i)) B (1 + ns.getD i 0) := by
        have h2 := addBiasCol_rect hfz
        rwa [Nat.add_comm] at h2
      have hz1 : IsRect (zA Ws fs batch (i + 1)) B (ns.getD (i + 1) 0) := by
        rw [zA]
        exact matMul_rect hin (transposeM_rect hWi1 hni1) (by omega)
      exact ⟨hz1, getD_shapePreserving hfs (i + 1) _ _ _ hz1⟩

/-! ### Shapes of the backward-pass error terms and gradients -/

theorem dEdzRev_rect (d : Nat) (ns : List Nat) (Ws : List Mat)
    (d_f_list : List (Mat → Mat)) (z : Nat → Mat) (out0 : Mat) (B : Nat)
    (hW : WShape d ns Ws) (hpos : ∀ i < ns.length, 0 < ns.getD i 0)
    (hdfs : ∀ f ∈ d_f_list, ShapePreserving f)
    (hz : ∀ i < ns.length, IsRect (z i) B (ns.getD i 0))
    (hout : IsRect out0 B (ns.getD (ns.length - 1) 0)) (hB : 0 < B)
    (hL : 0 < ns.length) :
    ∀ k ≤ ns.length - 1,
      IsRect (dEdzRev Ws d_f_list z out0 k) B (ns.getD (ns.length - 1 - k) 0) := by
  intro k
  induction k with
  | zero =>
      intro _
      simpa [dEdzRev] using hout
  | succ k ih =>
      intro hk1
      have hk : k ≤ ns.length - 1 := by omega
      have hdE := ih hk
      set i := Ws.length - 1 - (k + 1) with hidef
      have hiv : i = ns.length - 1 - (k + 1) := by rw [hidef, hW.lenEq]
      have hi1 : i + 1 = ns.length - 1 - k := by omega
      have hiL : i < ns.length := by omega
      have hi1L : i + 1 < ns.length := by omega
      have hWi1 : IsRect (Ws.getD (i + 1) []) (ns.getD (i + 1) 0) (1 + ns.getD i 0) := by
        have h := hW.layer hi1L
        rwa [show layerCols d ns (i + 1) = 1 + ns.getD i 0 by simp [layerCols]] at h
      have hni := hpos i hiL
      have hni1 := hpos (i + 1) hi1L
      rw [← hi1] at hdE
      have hdfz : IsRect ((d_f_list.getD i (fun m => m)) (z i)) B (ns.getD i 0) :=
        getD_shapePreserving hdfs i _ _ _ (hz i hiL)
      show IsRect
        (hiddenDE (Ws.getD (i + 1) []) (dEdzRev Ws d_f_list z out0 k)
          ((d_f_list.getD i (fun m => m)) (z i))) B (ns.getD (ns.length - 1 - (k + 1)) 0)
      rw [← hiv]
      unfold hiddenDE
      have ht := transposeM_rect hWi1 hni1
      have hd := drop_rect ht 1
      rw [show 1 + ns.getD i 0 - 1 = ns.getD i 0 by omega] at hd
      have h2 := transposeM_rect hdE hB
      have h3 := matMul_rect hd h2 hni1
      have h4 := transposeM_rect h3 hni
      exact hadamard_rect h4 hdfz

theorem dEdz_rect (d : Nat) (ns : List Nat) (Ws : List Mat)
    (d_f_list : List (Mat → Mat)) (z : Nat → Mat) (out0 : Mat) (B : Nat)
    (hW : WShape d ns Ws) (hpos : ∀ i < ns.length, 0 < ns.getD i 0)
    (hdfs : ∀ f ∈ d_f_list, ShapePreserving f)
    (hz : ∀ i < ns.length, IsRect (z i) B (ns.getD i 0))
    (hout : IsRect out0 B (ns.getD (ns.length - 1) 0)) (hB : 0 < B) :
    ∀ i < ns.length, IsRect (dEdz Ws d_f_list z out0 i) B (ns.getD i 0) := by
  intro i hiL
  have hL : 0 < ns.length := by omega
  have h := dEdzRev_rect d ns Ws d_f_list z out0 B hW hpos hdfs hz hout hB hL
    (ns.length - 1 - i) (by omega)
  rw [dEdz, hW.lenEq]
  rwa [show ns.length - 1 - (ns.length - 1 - i) = i by omega] at h

theorem batchOut0_rect (d : Nat) (ns : List Nat) (a : TrainArgs)
    (fs : List (Mat → Mat)) (batch yBatch : Mat) (Ws : List Mat) (B : Nat)
    (hW : WShape d ns Ws) (hpos : ∀ i < ns.length, 0 < ns.getD i 0)
    (hfs : ∀ f ∈ fs, ShapePreserving f)
    (hdfs : ∀ f ∈ a.d_f_list, ShapePreserving f)
    (hdg : DGoalShape a.d_goal)
    (hbatch : IsRect batch B (1 + d)) (hB : 0 < B) (hL : 0 < ns.length) :
    IsRect (batchOut0 a fs batch yBatch Ws) B (ns.getD (ns.length - 1) 0) := by
  have hlast : ns.length - 1 < ns.length := by omega
  obtain ⟨hz, hfz⟩ :=
    zA_fzA_rect d ns Ws fs batch B hW hpos hfs hbatch hB (ns.length - 1) hlast
  have hWlen := hW.lenEq
  unfold batchOut0 outputDE
  rw [hWlen]
  cases a.d_goal_is_d_cross_entropy with
  | false =>
      simp only [Bool.false_eq_true, if_false]
      exact hadamard_rect (hdg _ _ _ _ hfz)
        (getD_shapePreserving hdfs (ns.length - 1) _ _ _ hz)
  | true =>
      simp only [if_true]
      exact hdg _ _ _ _ hfz

/-- C3: for every layer `i`, the gradient of the batch backward pass is the
transpose of (layer input, transposed, times `dE/dz_i`), divided by the
nominal batch size — the layer input being the bias-augmented raw batch for
layer 0 and the bias-augmented recorded activation of layer `i-1` otherwise —
and this gradient matrix has exactly the shape of `W[i]`. -/
theorem gradient_formula_and_shape (d : Nat) (ns : List Nat) (a : TrainArgs)
    (fs : List (Mat → Mat)) (bs : Nat) (batch yBatch : Mat) (Ws : List Mat)
    (B : Nat) (hW : WShape d ns Ws) (hpos : ∀ i < ns.length, 0 < ns.getD i 0)
    (hfs : ∀ f ∈ fs, ShapePreserving f)
    (hdfs : ∀ f ∈ a.d_f_list, ShapePreserving f)
    (hdg : DGoalShape a.d_goal)
    (hbatch : IsRect batch B (1 + d)) (hB : 0 < B) :
    ∀ i < ns.length,
      batchNabla a fs bs batch yBatch Ws i =
        matDivNat (transposeM (matMul
          (transposeM (if i = 0 then batch
            else addBiasCol (fzA Ws fs batch (i - 1))))
          (batchDEdz a fs batch yBatch Ws i))) bs ∧
      IsRect (batchNabla a fs bs batch yBatch Ws i) (ns.getD i 0)
        (layerCols d ns i) := by
  intro i hi
  have hL : 0 < ns.length := by omega
  have hout := batchOut0_rect d ns a fs batch yBatch Ws B hW hpos hfs hdfs hdg
    hbatch hB hL
  have hz : ∀ j < ns.length, IsRect (zA Ws fs batch j) B (ns.getD j 0) :=
    fun j hj => (zA_fzA_rect d ns Ws fs batch B hW hpos hfs hbatch hB j hj).1
  have hfz : ∀ j < ns.length, IsRect (fzA Ws fs batch j) B (ns.getD j 0) :=
    fun j hj => (zA_fzA_rect d ns Ws fs batch B hW hpos hfs hbatch hB j hj).2
  have hdE : IsRect (batchDEdz a fs batch yBatch Ws i) B (ns.getD i 0) :=
    dEdz_rect d ns Ws a.d_f_list (zA Ws fs batch) _ B hW hpos hdfs hz hout hB i hi
  refine ⟨rfl, ?_⟩
  have hlin : IsRect (layerInput batch (fzA Ws fs batch) i) B (layerCols d ns i) := by
    unfold layerInput layerCols
    by_cases h0 : i = 0
    · rw [if_pos h0, if_pos h0]
      exact hbatch
    · rw [if_neg h0, if_neg h0]
      have hfzi := hfz (i - 1) (by omega)
      have h2 := addBiasCol_rect hfzi
      rwa [Nat.add_comm] at h2
  show IsRect (nablaW batch (fzA Ws fs batch) (batchDEdz a fs batch yBatch Ws) bs i) _ _
  unfold nablaW
  have h1 := transposeM_rect hlin hB
  have h2 := matMul_rect h1 hdE hB
  have h3 := transposeM_rect h2 (by unfold layerCols; omega)
  exact matDivNat_rect bs h3

/-- Witness for C3 on a concrete one-layer network with a two-example batch. -/
theorem gradient_formula_and_shape_witness :
    batchNabla exArgs [fun m => m] 2 [[1, 5], [1, 6]] [[2], [3]] [[[1, 2]]] 0 =
      matDivNat (transposeM (matMul
        (transposeM (if 0 = 0 then ([[1, 5], [1, 6]] : Mat)
          else addBiasCol (fzA [[[1, 2]]] [fun m => m] [[1, 5], [1, 6]] (0 - 1))))
        (batchDEdz exArgs [fun m => m] [[1, 5], [1, 6]] [[2], [3]] [[[1, 2]]] 0))) 2 ∧
    IsRect (batchNabla exArgs [fun m => m] 2 [[1, 5], [1, 6]] [[2], [3]] [[[1, 2]]] 0)
      (([1] : List Nat).getD 0 0) (layerCols 1 [1] 0) :=
  gradient_formula_and_shape 1 [1] exArgs [fun m => m] 2 [[1, 5], [1, 6]]
    [[2], [3]] [[[1, 2]]] 2 (by decide) (by decide)
    (by
      intro f hf
      simp at hf
      subst hf
      intro A r c h
      exact h)
    (by
      intro f hf
      have hf' : f = fun m => m := by simpa [exArgs] using hf
      subst hf'
      intro A r c h
      exact h)
    (by
      intro t o r c h
      simpa [exArgs, idDGoal] using h)
    (by decide) (by decide) 0 (by decide)

/-! ### Shape preservation of the weight update and the batch step -/

theorem updateLayer_rect (a : TrainArgs) (nlgI : Option Mat) (Wi lastDi nabI : Mat)
    (r c : Nat) (hWi : IsRect Wi r c) (hlast : IsRect lastDi r c)
    (hnab : IsRect nabI r c) (hnlg : ∀ g, nlgI = some g → IsRect g r c)
    (hdreg : ∀ f, a.d_regularization_norm = some f → ShapePreserving f)
    (hu : NlgShape a.nlg_update) :
    IsRect (updateLayer a nlgI Wi lastDi nabI).1 r c ∧
    IsRect (updateLayer a nlgI Wi lastDi nabI).2.1 r c ∧
    ∀ g, nlgI = some g → IsRect (updateLayer a nlgI Wi lastDi nabI).2.2 r c := by
  have hbase : IsRect (matAdd (smulM a.momentum_rate lastDi) nabI) r c :=
    matAdd_rect (smulM_rect _ hlast) hnab
  have hinner : IsRect
      (match a.d_regularization_norm with
       | none => matAdd (smulM a.momentum_rate lastDi) nabI
       | some dreg =>
           matAdd (matAdd (smulM a.momentum_rate lastDi) nabI)
             (smulM a.regularization_rate (zeroCol0 (dreg Wi)))) r c := by
    cases hdr : a.d_regularization_norm with
    | none => exact hbase
    | some f =>
        exact matAdd_rect hbase
          (smulM_rect _ (zeroCol0_rect (hdreg f hdr _ _ _ hWi)))
  unfold updateLayer
  cases hni : nlgI with
  | none =>
      refine ⟨matSub_rect hWi (smulM_rect _ hinner), smulM_rect _ hinner, ?_⟩
      intro g hg
      cases hg
  | some g =>
      have hgr := hnlg g hni
      have hdelta : IsRect
          (hadamard (smulM a.learning_rate g)
            (match a.d_regularization_norm with
             | none => matAdd (smulM a.momentum_rate lastDi) nabI
             | some dreg =>
                 matAdd (matAdd (smulM a.momentum_rate lastDi) nabI)
                   (smulM a.regularization_rate (zeroCol0 (dreg Wi))))) r c :=
        hadamard_rect (smulM_rect _ hgr) hinner
      refine ⟨matSub_rect hWi hdelta, hdelta, ?_⟩
      intro g' hg'
      cases hg'
      cases hq : a.neural_local_gain with
      | none => exact hgr
      | some q =>
          obtain ⟨b, p, mn, mx⟩ := q
          exact hu g _ b p mn mx r c hgr

theorem batchStepP_shapeInv (d : Nat) (ns : List Nat) (a : TrainArgs)
    (fs : List (Mat → Mat)) (bs : Nat) (batch yBatch : Mat) (B : Nat)
    (st : TState) (hst : ShapeInv d ns st)
    (hpos : ∀ i < ns.length, 0 < ns.getD i 0)
    (hfs : ∀ f ∈ fs, ShapePreserving f)
    (hdfs : ∀ f ∈ a.d_f_list, ShapePreserving f)
    (hdg : DGoalShape a.d_goal)
    (hdreg : ∀ f, a.d_regularization_norm = some f → ShapePreserving f)
    (hu : NlgShape a.nlg_update)
    (hbatch : IsRect batch B (1 + d)) (hB : 0 < B) :
    ShapeInv d ns (batchStepP a fs bs batch yBatch st) := by
  obtain ⟨hWs, hLD, hnlg⟩ := hst
  have hLen : st.W.length = ns.length := hWs.lenEq
  have hnab : ∀ i < ns.length,
      IsRect (batchNabla a fs bs batch yBatch st.W i) (ns.getD i 0)
        (layerCols d ns i) :=
    fun i hi => (gradient_formula_and_shape d ns a fs bs batch yBatch st.W B hWs
      hpos hfs hdfs hdg hbatch hB i hi).2
  have hup : ∀ i < ns.length,
      IsRect (updateLayer a (st.nlg.map (fun g => g.getD i [])) (st.W.getD i [])
        (st.lastDelta.getD i []) (batchNabla a fs bs batch yBatch st.W i)).1
        (ns.getD i 0) (layerCols d ns i) ∧
      IsRect (updateLayer a (st.nlg.map (fun g => g.getD i [])) (st.W.getD i [])
        (st.lastDelta.getD i []) (batchNabla a fs bs batch yBatch st.W i)).2.1
        (ns.getD i 0) (layerCols d ns i) ∧
      ∀ g, st.nlg.map (fun g => g.getD i []) = some g →
        IsRect (updateLayer a (st.nlg.map (fun g => g.getD i [])) (st.W.getD i [])
          (st.lastDelta.getD i []) (batchNabla a fs bs batch yBatch st.W i)).2.2
          (ns.getD i 0) (layerCols d ns i) := by
    intro i hi
    refine updateLayer_rect a _ _ _ _ _ _ (hWs.layer hi) (hLD.layer hi) (hnab i hi)
      ?_ hdreg hu
    intro g hg
    cases hni : st.nlg with
    | none => rw [hni] at hg; cases hg
    | some g0 =>
        rw [hni] at hg
        simp only [Option.map_some'] at hg
        cases hg
        exact (hnlg g0 hni).layer hi
  refine ⟨⟨?_, ?_⟩, ⟨?_, ?_⟩, ?_⟩
  · simp [batchStepP, hLen]
  · intro i hi
    rw [show (batchStepP a fs bs batch yBatch st).W =
        ((List.range st.W.length).map (fun i =>
          updateLayer a (st.nlg.map (fun g => g.getD i [])) (st.W.getD i [])
            (st.lastDelta.getD i [])
            (batchNabla a fs bs batch yBatch st.W i))).map (fun u => u.1) from rfl,
      List.map_map, getD_map_range _ [] (by omega : i < st.W.length)]
    exact (hup i hi).1
  · simp [batchStepP, hLen]
  · intro i hi
    rw [show (batchStepP a fs bs batch yBatch st).lastDelta =
        ((List.range st.W.length).map (fun i =>
          updateLayer a (st.nlg.map (fun g => g.getD i [])) (st.W.getD i [])
            (st.lastDelta.getD i [])
            (batchNabla a fs bs batch yBatch st.W i))).map (fun u => u.2.1) from rfl,
      List.map_map, getD_map_range _ [] (by omega : i < st.W.length)]
    exact (hup i hi).2.1
  · intro g' hg'
    cases hni : st.nlg with
    | none =>
        rw [show (batchStepP a fs bs batch yBatch st).nlg =
            st.nlg.map (fun _ =>
              ((List.range st.W.length).map (fun i =>
                updateLayer a (st.nlg.map (fun g => g.getD i [])) (st.W.getD i [])
                  (st.lastDelta.getD i [])
                  (batchNabla a fs bs batch yBatch st.W i))).map (fun u => u.2.2))
          from rfl, hni] at hg'
        cases hg'
    | some g0 =>
        rw [show (batchStepP a fs bs batch yBatch st).nlg =
            st.nlg.map (fun _ =>
              ((List.range st.W.length).map (fun i =>
                updateLayer a (st.nlg.map (fun g => g.getD i [])) (st.W.getD i [])
                  (st.lastDelta.getD i [])
                  (batchNabla a fs bs batch yBatch st.W i))).map (fun u => u.2.2))
          from rfl, hni] at hg'
        simp only [Option.map_some'] at hg'
        cases hg'
        refine ⟨by simp [hLen], ?_⟩
        intro i hi
        rw [List.map_map, getD_map_range _ [] (by omega : i < st.W.length)]
        have h := (hup i hi).2.2 (g0.getD i []) (by rw [hni]; rfl)
        rw [hni] at h
        simp only [Option.map_some'] at h
        simpa [Function.comp] using h

/-! ### The checked forward passes succeed on well-shaped data -/

theorem WShape_tail {d n : Nat} {ms : List Nat} {W0 : Mat} {Wr : List Mat}
    (hW : WShape d (n :: ms) (W0 :: Wr)) : WShape n ms Wr := by
  refine ⟨by have := hW.lenEq; simpa using this, ?_⟩
  intro i hi
  have h := hW.layer (i := i + 1) (by simpa using Nat.succ_lt_succ hi)
  rw [List.getD_cons_succ, List.getD_cons_succ] at h
  have hcols : layerCols d (n :: ms) (i + 1) = layerCols n ms i := by
    cases i with
    | zero => simp [layerCols]
    | succ k => simp [layerCols]
  rwa [hcols] at h

theorem chainOK_of_WShape : ∀ (d : Nat) (ns : List Nat) (Ws : List Mat)
    (fs : List (Mat → Mat)), WShape d ns Ws → (∀ i < ns.length, 0 < ns.getD i 0) →
    fs.length = ns.length → (∀ f ∈ fs, ShapePreserving f) →
    ChainOK d (Ws.zip fs) ns := by
  intro d ns
  induction ns generalizing d with
  | nil =>
      intro Ws fs hW _ _ _
      have hWnil : Ws = [] := List.length_eq_zero.mp (by rw [hW.lenEq]; rfl)
      subst hWnil
      trivial
  | cons n ms ih =>
      intro Ws fs hW hpos hlen hfs
      rcases Ws with _ | ⟨W0, Wr⟩
      · exact absurd hW.lenEq (by simp)
      rcases fs with _ | ⟨f0, fr⟩
      · exact absurd hlen (by simp)
      show ChainOK d ((W0, f0) :: Wr.zip fr) (n :: ms)
      refine ⟨?_, hpos 0 (by simp), hfs f0 (by simp), ?_⟩
      · have h := hW.layer (i := 0) (by simp)
        simpa [layerCols] using h
      · exact ih n Wr fr (WShape_tail hW) (fun i hi => hpos (i + 1) (by simpa using Nat.succ_lt_succ hi))
          (by simpa using hlen) (fun f hf => hfs f (by simp [hf]))

theorem forwardChk_ok : ∀ (layers : List (Mat × (Mat → Mat))) (din : Nat)
    (ns : List Nat) (d0 : Mat) (B : Nat), ChainOK din layers ns →
    IsRect d0 B (1 + din) → 0 < B → forwardChk layers d0 = .ok () := by
  intro layers
  induction layers with
  | nil => intro _ _ _ _ _ _ _; rfl
  | cons hd rest ih =>
      obtain ⟨Wi, fi⟩ := hd
      intro din ns d0 B hchain hd0 hB
      rcases ns with _ | ⟨n, ms⟩
      · exact hchain.elim
      obtain ⟨h1, h2, h3, h4⟩ := hchain
      have hcheck : ncols d0 = (transposeM Wi).length := by
        rw [transposeM_length_ncols, ncols_eq hd0 hB, ncols_eq h1 h2]
      unfold forwardChk
      rw [if_pos hcheck]
      cases rest with
      | nil => rfl
      | cons r rrest =>
          have ho : IsRect (fi (matMul d0 (transposeM Wi))) B n :=
            h3 _ _ _ (matMul_rect hd0 (transposeM_rect h1 h2) (by omega))
          have hbias : IsRect (addBiasCol (fi (matMul d0 (transposeM Wi)))) B (1 + n) := by
            have h := addBiasCol_rect ho
            rwa [Nat.add_comm] at h
          exact ih n ms _ B h4 hbias hB

theorem compute_output_ok (d : Nat) (ns : List Nat) (Ws : List Mat)
    (fs : List (Mat → Mat)) (inputD : Mat) (N : Nat)
    (hW : WShape d ns Ws) (hpos : ∀ i < ns.length, 0 < ns.getD i 0)
    (hlenfs : fs.length = ns.length) (hfs : ∀ f ∈ fs, ShapePreserving f)
    (hin : IsRect inputD N (1 + d)) (hN : 0 < N) (hL : 0 < ns.length) :
    MLP.compute_output ⟨Ws, fs⟩ inputD false =
      .ok (forwardVal (Ws.zip fs) inputD) := by
  have hcheck : ncols inputD = ncols (Ws.getD 0 []) := by
    rw [ncols_eq hin hN, ncols_eq (hW.layer hL) (hpos 0 hL)]
    simp [layerCols]
  unfold MLP.compute_output
  dsimp only
  simp only [Bool.false_eq_true, if_false]
  rw [if_neg (not_ne_iff.mpr hcheck),
    forwardChk_ok (Ws.zip fs) d ns inputD N
      (chainOK_of_WShape d ns Ws fs hW hpos hlenfs hfs) hin hN]
  rfl

theorem batchStep_ok (d : Nat) (ns : List Nat) (a : TrainArgs)
    (fs : List (Mat → Mat)) (bs : Nat) (inputD outputD : Mat) (slice : List Nat)
    (st : TState) (N : Nat) (hst : ShapeInv d ns st)
    (hpos : ∀ i < ns.length, 0 < ns.getD i 0)
    (hlenfs : fs.length = ns.length) (hfs : ∀ f ∈ fs, ShapePreserving f)
    (hdfs : ∀ f ∈ a.d_f_list, ShapePreserving f) (hdg : DGoalShape a.d_goal)
    (hdreg : ∀ f, a.d_regularization_norm = some f → ShapePreserving f)
    (hu : NlgShape a.nlg_update)
    (hin : IsRect inputD N (1 + d))
    (hvalid : ∀ j ∈ slice, j < N) (hslice : 0 < slice.length) :
    batchStep a fs bs inputD outputD slice st =
      .ok (batchStepP a fs bs (selectRows inputD slice)
        (selectRows outputD slice) st) ∧
    ShapeInv d ns (batchStepP a fs bs (selectRows inputD slice)
      (selectRows outputD slice) st) := by
  have hbatch : IsRect (selectRows inputD slice) slice.length (1 + d) :=
    selectRows_rect hin hvalid
  constructor
  · unfold batchStep
    rw [forwardChk_ok (st.W.zip fs) d ns _ slice.length
      (chainOK_of_WShape d ns st.W fs hst.1 hpos hlenfs hfs) hbatch hslice]
    rfl
  · exact batchStepP_shapeInv d ns a fs bs _ _ slice.length st hst hpos hfs hdfs
      hdg hdreg hu hbatch hslice

theorem foldlM_batches (Inv : TState → Prop)
    (f : TState → Nat → Except MLPErr TState) :
    ∀ (l : List Nat) (st : TState),
      (∀ (st' : TState) (s : Nat), s ∈ l → Inv st' →
        ∃ st'', f st' s = .ok st'' ∧ Inv st'') →
      Inv st → ∃ st', l.foldlM f st = .ok st' ∧ Inv st' := by
  intro l
  induction l with
  | nil =>
      intro st _ hst
      exact ⟨st, rfl, hst⟩
  | cons x xs ih =>
      intro st hstep hst
      obtain ⟨st1, hx, h1⟩ := hstep st x (by simp) hst
      obtain ⟨st', hfold, h'⟩ := ih st1 (fun st' s hs => hstep st' s (by simp [hs])) h1
      refine ⟨st', ?_, h'⟩
      rw [List.foldlM_cons, hx]
      exact hfold

theorem rangeStep_mem_lt {N bs s : Nat} (hbs : 0 < bs) (hs : s ∈ rangeStep N bs) :
    s < N := by
  unfold rangeStep at hs
  rw [if_neg hbs.ne'] at hs
  simp only [List.mem_map, List.mem_range] at hs
  obtain ⟨i, hik, rfl⟩ := hs
  have hN : 0 < N := by
    by_contra h
    have hN0 : N = 0 := by omega
    subst hN0
    rw [Nat.div_eq_of_lt (by omega)] at hik
    omega
  have hkbs : ((N + bs - 1) / bs) * bs ≤ N + bs - 1 := Nat.div_mul_le_self _ _
  have h1 : i * bs ≤ (((N + bs - 1) / bs) - 1) * bs :=
    Nat.mul_le_mul_right _ (by omega)
  have h2 : (((N + bs - 1) / bs) - 1) * bs = ((N + bs - 1) / bs) * bs - bs := by
    rw [Nat.sub_mul, Nat.one_mul]
  omega

theorem except_bind_ok {ε α β : Type} (a : α) (f : α → Except ε β) :
    (Except.ok a >>= f : Except ε β) = f a := rfl

theorem epochFull_ok (d : Nat) (ns : List Nat) (a : TrainArgs)
    (fs : List (Mat → Mat)) (bs : Nat) (inputD outputD : Mat)
    (cvX : Option Mat) (n : Nat) (st : TState) (N : Nat)
    (hst : ShapeInv d ns st)
    (hpos : ∀ i < ns.length, 0 < ns.getD i 0)
    (hlenfs : fs.length = ns.length) (hfs : ∀ f ∈ fs, ShapePreserving f)
    (hdfs : ∀ f ∈ a.d_f_list, ShapePreserving f) (hdg : DGoalShape a.d_goal)
    (hdreg : ∀ f, a.d_regularization_norm = some f → ShapePreserving f)
    (hu : NlgShape a.nlg_update)
    (hin : IsRect inputD N (1 + d)) (hN : 0 < N) (hbs : 0 < bs)
    (hL : 0 < ns.length)
    (hsh : ∀ j ∈ a.shuffle n (List.range N), j < N)
    (hshlen : (a.shuffle n (List.range N)).length = N)
    (hcv : ∀ cvIn, cvX = some cvIn →
      ∃ ncv, 0 < ncv ∧ IsRect cvIn ncv (1 + d)) :
    ∃ st' c cvc, epochFull a fs bs inputD outputD cvX n st = .ok (st', c, cvc) ∧
      ShapeInv d ns st' ∧
      cvc.isSome = (cvX.isSome && a.cv_output_data.isSome) := by
  have hNlen : inputD.length = N := hin.length_eq
  have hstep : ∀ (st' : TState) (s : Nat), s ∈ rangeStep N bs → ShapeInv d ns st' →
      ∃ st'', batchStep a fs bs inputD outputD
        (((a.shuffle n (List.range N)).drop s).take bs) st' = .ok st'' ∧
        ShapeInv d ns st'' := by
    intro st' s hsmem hst'
    have hsN : s < N := rangeStep_mem_lt hbs hsmem
    have hvalid : ∀ j ∈ ((a.shuffle n (List.range N)).drop s).take bs, j < N :=
      fun j hj => hsh j (List.mem_of_mem_drop (List.mem_of_mem_take hj))
    have hslice : 0 < (((a.shuffle n (List.range N)).drop s).take bs).length := by
      simp only [List.length_take, List.length_drop, hshlen]
      omega
    obtain ⟨hok, hinv⟩ := batchStep_ok d ns a fs bs inputD outputD _ st' N hst'
      hpos hlenfs hfs hdfs hdg hdreg hu hin hvalid hslice
    exact ⟨_, hok, hinv⟩
  obtain ⟨st', hfold, hst'⟩ := foldlM_batches (ShapeInv d ns) _ (rangeStep N bs) st
    hstep hst
  have hout := compute_output_ok d ns st'.W fs inputD N hst'.1 hpos hlenfs hfs
    hin hN hL
  unfold epochFull
  dsimp only
  rw [hNlen, hshlen, hfold, except_bind_ok, hout, except_bind_ok]
  rcases hcvx : cvX with _ | cvIn
  · rcases hco : a.cv_output_data with _ | cvOut
    · exact ⟨st', _, none, rfl, hst', by simp⟩
    · exact ⟨st', _, none, rfl, hst', by simp⟩
  · rcases hco : a.cv_output_data with _ | cvOut
    · exact ⟨st', _, none, rfl, hst', by simp [hco]⟩
    · obtain ⟨ncv, hncv, hcvrect⟩ := hcv cvIn hcvx
      have hcvout := compute_output_ok d ns st'.W fs cvIn ncv hst'.1 hpos hlenfs
        hfs hcvrect hncv hL
      dsimp only
      rw [hcvout, except_bind_ok]
      exact ⟨st', _, _, rfl, hst', by simp [hco]⟩

theorem trainLoop_ok (d : Nat) (ns : List Nat) (a : TrainArgs)
    (fs : List (Mat → Mat)) (bs : Nat) (inputD outputD : Mat)
    (cvX : Option Mat) (N : Nat)
    (hpos : ∀ i < ns.length, 0 < ns.getD i 0)
    (hlenfs : fs.length = ns.length) (hfs : ∀ f ∈ fs, ShapePreserving f)
    (hdfs : ∀ f ∈ a.d_f_list, ShapePreserving f) (hdg : DGoalShape a.d_goal)
    (hdreg : ∀ f, a.d_regularization_norm = some f → ShapePreserving f)
    (hu : NlgShape a.nlg_update)
    (hin : IsRect inputD N (1 + d)) (hN : 0 < N) (hbs : 0 < bs)
    (hL : 0 < ns.length)
    (hsh : ∀ k, ∀ j ∈ a.shuffle k (List.range N), j < N)
    (hshlen : ∀ k, (a.shuffle k (List.range N)).length = N)
    (hcv : ∀ cvIn, cvX = some cvIn → ∃ ncv, 0 < ncv ∧ IsRect cvIn ncv (1 + d)) :
    ∀ (fuel n : Nat) (st : TState) (cost cv : List ℚ), ShapeInv d ns st →
      ((cvX.isSome && a.cv_output_data.isSome) = true → cv.length = cost.length) →
      ∃ cost' cv' st',
        trainLoop a fs bs inputD outputD cvX fuel n st cost cv =
          .ok (cost', cv', st') ∧
        cost.length ≤ cost'.length ∧ cost'.length ≤ cost.length + fuel ∧
        (0 < fuel → cost.length < cost'.length) ∧
        ((cvX.isSome && a.cv_output_data.isSome) = true →
          cv'.length = cost'.length) ∧
        ShapeInv d ns st' := by
  intro fuel
  induction fuel with
  | zero =>
      intro n st cost cv hst hinv
      exact ⟨cost, cv, st, rfl, Nat.le_refl _, by omega, by omega, hinv, hst⟩
  | succ fuel ih =>
      intro n st cost cv hst hinv
      obtain ⟨st', c, cvc, hep, hst', hcs⟩ := epochFull_ok d ns a fs bs inputD
        outputD cvX n st N hst hpos hlenfs hfs hdfs hdg hdreg hu hin hN hbs hL
        (hsh n) (hshlen n) hcv
      rw [show trainLoop a fs bs inputD outputD cvX (fuel + 1) n st cost cv =
          (epochFull a fs bs inputD outputD cvX n st >>= fun x =>
            match x with
            | (st', c, cvc?) =>
              (let cost' := cost ++ [c]
               let cv' := match cvc? with
                 | some v => cv ++ [v]
                 | none => cv
               if stopCheck cvc?.isSome n a.n_iter_stop_skip a.stop_threshold
                   a.min_train_cost a.min_cv_cost a.tolerance cost' cv' then
                 .ok (cost', cv', st')
               else
                 trainLoop a fs bs inputD outputD cvX fuel (n + 1) st' cost' cv'))
        from rfl, hep, except_bind_ok]
      dsimp only
      cases cvc with
      | none =>
          have hdocv : (cvX.isSome && a.cv_output_data.isSome) = false := by
            simpa using hcs.symm
          by_cases hstop : stopCheck false n a.n_iter_stop_skip a.stop_threshold
              a.min_train_cost a.min_cv_cost a.tolerance (cost ++ [c]) cv = true
          · rw [if_pos (by simpa using hstop)]
            refine ⟨cost ++ [c], cv, st', rfl, by simp, by simp, by simp, ?_, hst'⟩
            intro hcontr
            rw [hdocv] at hcontr
            cases hcontr
          · rw [if_neg (by simpa using hstop)]
            obtain ⟨cost', cv', st'', hloop, h1, h2, h3, h4, h5⟩ :=
              ih (n + 1) st' (cost ++ [c]) cv hst' (by
                intro hcontr
                rw [hdocv] at hcontr
                cases hcontr)
            refine ⟨cost', cv', st'', hloop, ?_, ?_, ?_, h4, h5⟩
            · simp at h1
              omega
            · simp at h1 h2
              omega
            · intro _
              simp at h1
              omega
      | some v =>
          have hdocv : (cvX.isSome && a.cv_output_data.isSome) = true := by
            simpa using hcs.symm
          have hvlen : (cv ++ [v]).length = (cost ++ [c]).length := by
            have := hinv hdocv
            simp [this]
          by_cases hstop : stopCheck true n a.n_iter_stop_skip a.stop_threshold
              a.min_train_cost a.min_cv_cost a.tolerance (cost ++ [c]) (cv ++ [v]) = true
          · rw [if_pos (by simpa using hstop)]
            exact ⟨cost ++ [c], cv ++ [v], st', rfl, by simp, by simp, by simp,
              fun _ => hvlen, hst'⟩
          · rw [if_neg (by simpa using hstop)]
            obtain ⟨cost', cv', st'', hloop, h1, h2, h3, h4, h5⟩ :=
              ih (n + 1) st' (cost ++ [c]) (cv ++ [v]) hst' (fun _ => hvlen)
            refine ⟨cost', cv', st'', hloop, ?_, ?_, ?_, h4, h5⟩
            · simp at h1
              omega
            · simp at h1 h2
              omega
            · intro _
              simp at h1
              omega

theorem WShape_map {d : Nat} {ns : List Nat} {Ws : List Mat} (h : WShape d ns Ws)
    (g : Mat → Mat) (hg : ∀ (A : Mat) (r c : Nat), IsRect A r c → IsRect (g A) r c) :
    WShape d ns (Ws.map g) := by
  refine ⟨by simp [h.lenEq], ?_⟩
  intro i hi
  have hilt : i < Ws.length := by rw [h.lenEq]; omega
  rw [List.getD_eq_getElem?_getD, List.getElem?_map, List.getElem?_eq_getElem hilt]
  simp only [Option.map_some', Option.getD_some]
  have hl := h.layer hi
  rw [List.getD_eq_getElem?_getD, List.getElem?_eq_getElem hilt] at hl
  simp only [Option.getD_some] at hl
  exact hg _ _ _ hl

/-- C8: under the documented shape contracts, `train_backprop` returns
normally (no error, in particular early stopping is a normal return): the
training cost history holds at least one and at most `max_iter` entries —
one per completed epoch — and when both cross-validation data sets are
supplied the result is the pair of histories with equal lengths, otherwise
the training history alone. -/
theorem train_backprop_histories (d : Nat) (ns : List Nat) (m : MLP)
    (a : TrainArgs) (input output_data : Mat) (N : Nat)
    (hW : WShape d ns m.W)
    (hpos : ∀ i < ns.length, 0 < ns.getD i 0)
    (hlenfs : m.f_list.length = ns.length)
    (hfs : ∀ f ∈ m.f_list, ShapePreserving f)
    (hdfs : ∀ f ∈ a.d_f_list, ShapePreserving f)
    (hdg : DGoalShape a.d_goal)
    (hdreg : ∀ f, a.d_regularization_norm = some f → ShapePreserving f)
    (hu : NlgShape a.nlg_update)
    (hL : 0 < ns.length)
    (hin : IsRect (if a.add_bias then addBiasCol input else input) N (1 + d))
    (hN : 0 < N)
    (hbs : 0 < a.batch_size.getD N)
    (hfuel : 0 < a.max_iter)
    (hsh : ∀ k, ∀ j ∈ a.shuffle k (List.range N), j < N)
    (hshlen : ∀ k, (a.shuffle k (List.range N)).length = N)
    (hcv : ∀ cvIn, a.cv_input_data = some cvIn →
      ∃ ncv, 0 < ncv ∧
        IsRect (if a.add_bias then addBiasCol cvIn else cvIn) ncv (1 + d)) :
    ∃ cost cv : List ℚ,
      1 ≤ cost.length ∧ cost.length ≤ a.max_iter ∧
      ((a.cv_input_data.isSome ∧ a.cv_output_data.isSome) →
        MLP.train_backprop m input output_data a = .ok (.inr (cost, cv)) ∧
          cv.length = cost.length) ∧
      (¬(a.cv_input_data.isSome ∧ a.cv_output_data.isSome) →
        MLP.train_backprop m input output_data a = .ok (.inl cost)) := by
  have hst0 : ShapeInv d ns
      { W := m.W, lastDelta := m.W.map zerosLike,
        nlg := if a.neural_local_gain.isSome then some (m.W.map onesLike)
          else none } := by
    refine ⟨hW, WShape_map hW zerosLike (fun A r c h => zerosLike_rect h), ?_⟩
    intro g hg
    by_cases hng : a.neural_local_gain.isSome
    · rw [if_pos hng] at hg
      cases hg
      exact WShape_map hW onesLike (fun A r c h => onesLike_rect h)
    · rw [if_neg hng] at hg
      cases hg
  have hcvX : ∀ cvIn',
      (match a.cv_input_data, a.cv_output_data with
       | some cvIn, some _ => some (if a.add_bias then addBiasCol cvIn else cvIn)
       | _, _ => none) = some cvIn' →
      ∃ ncv, 0 < ncv ∧ IsRect cvIn' ncv (1 + d) := by
    intro cvIn' hc
    rcases hci : a.cv_input_data with _ | cvIn
    · rw [hci] at hc
      rcases a.cv_output_data <;> cases hc
    · rcases hco : a.cv_output_data with _ | cvOut
      · rw [hci, hco] at hc
        cases hc
      · rw [hci, hco] at hc
        obtain ⟨ncv, h1, h2⟩ := hcv cvIn hci
        cases hc
        exact ⟨ncv, h1, h2⟩
  obtain ⟨cost', cv', st', hloop, h1, h2, h3, h4, h5⟩ :=
    trainLoop_ok d ns a m.f_list
      (a.batch_size.getD (if a.add_bias then addBiasCol input else input).length)
      (if a.add_bias then addBiasCol input else input) output_data
      (match a.cv_input_data, a.cv_output_data with
       | some cvIn, some _ => some (if a.add_bias then addBiasCol cvIn else cvIn)
       | _, _ => none) N hpos hlenfs hfs hdfs hdg hdreg hu hin hN
      (by rw [hin.length_eq]; exact hbs) hL hsh hshlen hcvX a.max_iter 0
      { W := m.W, lastDelta := m.W.map zerosLike,
        nlg := if a.neural_local_gain.isSome then some (m.W.map onesLike)
          else none } [] [] hst0 (fun _ => rfl)
  have htb : MLP.train_backprop m input output_data a =
      (if a.cv_input_data.isSome ∧ a.cv_output_data.isSome then
        Except.ok (Sum.inr (cost', cv')) else Except.ok (Sum.inl cost')) := by
    calc MLP.train_backprop m input output_data a =
        (trainLoop a m.f_list
          (a.batch_size.getD
            (if a.add_bias then addBiasCol input else input).length)
          (if a.add_bias then addBiasCol input else input) output_data
          (match a.cv_input_data, a.cv_output_data with
           | some cvIn, some _ =>
               some (if a.add_bias then addBiasCol cvIn else cvIn)
           | _, _ => none) a.max_iter 0
          { W := m.W, lastDelta := m.W.map zerosLike,
            nlg := if a.neural_local_gain.isSome then some (m.W.map onesLike)
              else none } [] []) >>= (fun r =>
            match r with
            | (cost, cv_cost, _) =>
                if a.cv_input_data.isSome ∧ a.cv_output_data.isSome then
                  Except.ok (Sum.inr (cost, cv_cost))
                else Except.ok (Sum.inl cost)) := rfl
      _ = _ := by rw [hloop, except_bind_ok]
  refine ⟨cost', cv', ?_, ?_, ?_, ?_⟩
  · have := h3 hfuel
    simpa using this
  · simpa using h2
  · intro hdo
    constructor
    · rw [htb, if_pos hdo]
    · refine h4 ?_
      obtain ⟨cvIn, hci⟩ := Option.isSome_iff_exists.mp hdo.1
      obtain ⟨cvOut, hco⟩ := Option.isSome_iff_exists.mp hdo.2
      rw [hci, hco]
      rfl
  · intro hndo
    rw [htb, if_neg hndo]

/-- Witness for C8 on a one-layer network trained with a one-example
training set and a one-example cross-validation set. -/
theorem train_backprop_histories_witness :
    ∃ cost cv : List ℚ,
      1 ≤ cost.length ∧ cost.length ≤ exArgsCV.max_iter ∧
      ((exArgsCV.cv_input_data.isSome ∧ exArgsCV.cv_output_data.isSome) →
        MLP.train_backprop ⟨[[[1, 2]]], [fun m => m]⟩ [[5]] [[0]] exArgsCV =
            .ok (.inr (cost, cv)) ∧
          cv.length = cost.length) ∧
      (¬(exArgsCV.cv_input_data.isSome ∧ exArgsCV.cv_output_data.isSome) →
        MLP.train_backprop ⟨[[[1, 2]]], [fun m => m]⟩ [[5]] [[0]] exArgsCV =
          .ok (.inl cost)) :=
  train_backprop_histories 1 [1] ⟨[[[1, 2]]], [fun m => m]⟩ exArgsCV [[5]] [[0]] 1
    (by decide) (by decide) (by decide)
    (by
      intro f hf
      simp at hf
      subst hf
      intro A r c h
      exact h)
    (by
      intro f hf
      have hf' : f = fun m => m := by simpa [exArgsCV, exArgs] using hf
      subst hf'
      intro A r c h
      exact h)
    (by
      intro t o r c h
      simpa [exArgsCV, exArgs, idDGoal] using h)
    (by intro f hf; cases hf)
    (by
      intro g c b p mn mx r cc h
      simpa [exArgsCV, exArgs, idNlgU] using h)
    (by decide) (by decide) (by decide) (by decide) (by decide)
    (fun k j hj => List.mem_range.mp (by
      simpa [exArgsCV, exArgs, idShuffle] using hj))
    (fun k => by simp [exArgsCV, exArgs, idShuffle])
    (by
      intro cvIn h
      have hc : cvIn = [[4]] := by
        have : (some [[4]] : Option Mat) = some cvIn := by
          simpa [exArgsCV, exArgs] using h
        cases this
        rfl
      subst hc
      exact ⟨1, by decide, by decide⟩)

/-- C9: construction produces the documented weight shapes — layer 0 has
`1 + input_dimension` columns, layer `i > 0` has `1 + layers_structure[i-1]`
columns, and layer `i` has `layers_structure[i]` rows — and the shape
invariant (weights, momentum buffers and gain matrices alike) is preserved
by every epoch of `train_backprop`, whose per-layer updates subtract
matrices of the same shape. -/
theorem construction_and_epoch_shape (input_dimension : Nat) (ns : List Nat)
    (fs : List (Mat → Mat)) (rng : Nat → List ℚ)
    (hrng : ∀ n, (rng n).length = n)
    (d' : Nat) (ns' : List Nat) (a : TrainArgs) (fs' : List (Mat → Mat))
    (bs : Nat) (inputD outputD : Mat) (cvX : Option Mat) (k : Nat)
    (st : TState) (N : Nat) (hst : ShapeInv d' ns' st)
    (hpos : ∀ i < ns'.length, 0 < ns'.getD i 0)
    (hlenfs : fs'.length = ns'.length) (hfs : ∀ f ∈ fs', ShapePreserving f)
    (hdfs : ∀ f ∈ a.d_f_list, ShapePreserving f) (hdg : DGoalShape a.d_goal)
    (hdreg : ∀ f, a.d_regularization_norm = some f → ShapePreserving f)
    (hu : NlgShape a.nlg_update)
    (hin : IsRect inputD N (1 + d')) (hN : 0 < N) (hbs : 0 < bs)
    (hL : 0 < ns'.length)
    (hsh : ∀ j ∈ a.shuffle k (List.range N), j < N)
    (hshlen : (a.shuffle k (List.range N)).length = N)
    (hcv : ∀ cvIn, cvX = some cvIn → ∃ ncv, 0 < ncv ∧ IsRect cvIn ncv (1 + d')) :
    WShape input_dimension ns (MLP.init input_dimension ns fs rng).W ∧
    ∃ st' c cvc, epochFull a fs' bs inputD outputD cvX k st = .ok (st', c, cvc) ∧
      ShapeInv d' ns' st' := by
  constructor
  · refine ⟨by simp [MLP.init], ?_⟩
    intro i hi
    show ((List.range ns.length).map (fun i =>
      reshapeM (rng (ns.getD i 0 *
        (1 + (if i = 0 then input_dimension else ns.getD (i - 1) 0))))
        (ns.getD i 0)
        (1 + (if i = 0 then input_dimension else ns.getD (i - 1) 0)))).getD i []
      |> (IsRect · (ns.getD i 0) (layerCols input_dimension ns i))
    rw [getD_map_range _ [] hi]
    have h := reshapeM_rect (hrng (ns.getD i 0 *
      (1 + (if i = 0 then input_dimension else ns.getD (i - 1) 0))))
    simpa [layerCols] using h
  · obtain ⟨st', c, cvc, hep, hst', _⟩ := epochFull_ok d' ns' a fs' bs inputD
      outputD cvX k st N hst hpos hlenfs hfs hdfs hdg hdreg hu hin hN hbs hL
      hsh hshlen hcv
    exact ⟨st', c, cvc, hep, hst'⟩

/-- Witness for C9: a concrete construction from a zero stream, and one
concrete epoch over a one-example data set preserving the shapes of a
one-layer state with adaptive-gain matrices present. -/
theorem construction_and_epoch_shape_witness :
    WShape 1 [1] (MLP.init 1 [1] [fun m => m] (fun n => List.replicate n 0)).W ∧
    ∃ st' c cvc, epochFull exArgs [fun m => m] 1 [[1, 5]] [[0]] none 0 exState =
        .ok (st', c, cvc) ∧
      ShapeInv 1 [1] st' :=
  construction_and_epoch_shape 1 [1] [fun m => m] (fun n => List.replicate n 0)
    (fun n => by simp) 1 [1] exArgs [fun m => m] 1 [[1, 5]] [[0]] none 0 exState 1
    ⟨by decide, by decide, fun g hg => by cases hg; decide⟩
    (by decide) (by decide)
    (by
      intro f hf
      simp at hf
      subst hf
      intro A r c h
      exact h)
    (by
      intro f hf
      have hf' : f = fun m => m := by simpa [exArgs] using hf
      subst hf'
      intro A r c h
      exact h)
    (by
      intro t o r c h
      simpa [exArgs, idDGoal] using h)
    (by intro f hf; cases hf)
    (by
      intro g c b p mn mx r cc h
      simpa [exArgs, idNlgU] using h)
    (by decide) (by decide) (by decide) (by decide)
    (fun j hj => List.mem_range.mp (by simpa [exArgs, idShuffle] using hj))
    (by simp [exArgs, idShuffle])
    (fun _ h => by cases h)
